import Mathlib

/-
Verification of the emitter package: a channel based pubsub engine.
The Go source is embedded shallowly:
  - Go strings are modeled as rune sequences (List Char). All characters that
    path.Match treats specially are ASCII, where byte-level and rune-level
    scanning coincide, so the rune-level model is faithful on the inputs the
    package manipulates.
  - the two concurrent registries (sync.Map) are modeled as association lists
    iterated in list order (sync.Map iteration order is unspecified; no claim
    below depends on a particular order).
  - loops are written with an explicit fuel argument bounding the number of
    iterations; every loop of the source consumes at least one character of
    the scanned list per iteration, so the provided fuel (length + 1) is
    never exhausted on any input.
-/

namespace emitter

/- ===== Go standard library: path.Match =====
   The emitter delegates wildcard matching to path.Match (pattern, name),
   which returns (matched, err) where the only error is ErrBadPattern.
   The error is modeled as the Bool second component. -/

/-- Leading star consumption at the top of scanChunk: strips the run of
stars from the front of the pattern and reports whether any was seen. -/
def stripStars : List Char → Bool × List Char
  | '*' :: rest => (true, (stripStars rest).2)
  | p => (false, p)

/-- Body of scanChunk after stars were stripped: scans the pattern up to the
next star that is not inside a bracket range, returning (chunk, rest).
A backslash takes the following character into the chunk verbatim. -/
def scanChunkAux : Bool → List Char → List Char × List Char
  | _, [] => ([], [])
  | inrange, c :: rest =>
    if c = '\\' then
      match rest with
      | [] => ([c], [])
      | d :: rest2 =>
        let r := scanChunkAux inrange rest2
        (c :: d :: r.1, r.2)
    else if c = '[' then
      let r := scanChunkAux true rest
      (c :: r.1, r.2)
    else if c = ']' then
      let r := scanChunkAux false rest
      (c :: r.1, r.2)
    else if c = '*' && !inrange then
      ([], c :: rest)
    else
      let r := scanChunkAux inrange rest
      (c :: r.1, r.2)

/-- Go scanChunk: gets the next segment of the pattern, a non-star chunk
possibly preceded by a star. Returns (star, chunk, rest). -/
def scanChunk (pattern : List Char) : Bool × List Char × List Char :=
  let s := stripStars pattern
  let c := scanChunkAux false s.2
  (s.1, c.1, c.2)

/-- Go getEsc: reads one possibly escaped character of a bracket range.
none models ErrBadPattern; a range character may not be the last character
of the chunk (the closing bracket must follow). -/
def getEsc : List Char → Option (Char × List Char)
  | [] => none
  | c :: rest =>
    if c = '-' || c = ']' then none
    else if c = '\\' then
      match rest with
      | [] => none
      | d :: rest2 => if rest2 = [] then none else some (d, rest2)
    else if rest = [] then none else some (c, rest)

/-- Result of matchChunk: ErrBadPattern, a failed match (no error), or a
successful match with the remaining name. -/
inductive ChunkRes where
  | err : ChunkRes
  | failed : ChunkRes
  | ok : List Char → ChunkRes

/-- The range-parsing loop inside the bracket case of matchChunk. Arguments:
fuel, the rune being matched, the match accumulator, whether at least one
range was parsed, the remaining chunk. Returns none on ErrBadPattern, else
(matchFound, chunk after the closing bracket). -/
def rangesLoop : Nat → Char → Bool → Bool → List Char → Option (Bool × List Char)
  | 0, _, _, _, _ => none
  | fuel + 1, r, mtch, nrpos, chunk =>
    match chunk, nrpos with
    | ']' :: rest, true => some (mtch, rest)
    | chunk, _ =>
      match getEsc chunk with
      | none => none
      | some (lo, chunk1) =>
        match chunk1 with
        | '-' :: chunk2 =>
          match getEsc chunk2 with
          | none => none
          | some (hi, chunk3) =>
            rangesLoop fuel r (mtch || decide (lo ≤ r ∧ r ≤ hi)) true chunk3
        | _ =>
          rangesLoop fuel r (mtch || decide (lo ≤ r ∧ r ≤ lo)) true chunk1

/-- Go matchChunk loop: checks whether the chunk matches the beginning of s.
The failed flag records a mismatch while parsing of the chunk continues, so
a bad pattern is still reported after a mismatch. -/
def matchChunkLoop : Nat → List Char → List Char → Bool → ChunkRes
  | 0, _, _, _ => ChunkRes.err
  | fuel + 1, chunk, s, failed0 =>
    match chunk with
    | [] => if failed0 then ChunkRes.failed else ChunkRes.ok s
    | c :: chunkRest =>
      let failed := failed0 || s.isEmpty
      if c = '[' then
        let dec : Char × List Char :=
          match failed, s with
          | false, x :: xs => (x, xs)
          | _, _ => (Char.ofNat 0, s)
        let ng : Bool × List Char :=
          match chunkRest with
          | '^' :: cr => (true, cr)
          | _ => (false, chunkRest)
        match rangesLoop (ng.2.length + 1) dec.1 false false ng.2 with
        | none => ChunkRes.err
        | some (mtch, chunk2) =>
          matchChunkLoop fuel chunk2 dec.2 (failed || (mtch == ng.1))
      else if c = '?' then
        if failed then matchChunkLoop fuel chunkRest s true
        else
          match s with
          | x :: xs => matchChunkLoop fuel chunkRest xs (decide (x = '/'))
          | [] => matchChunkLoop fuel chunkRest s true
      else if c = '\\' then
        match chunkRest with
        | [] => ChunkRes.err
        | d :: chunkRest2 =>
          if failed then matchChunkLoop fuel chunkRest2 s true
          else
            match s with
            | x :: xs => matchChunkLoop fuel chunkRest2 xs (decide (d ≠ x))
            | [] => matchChunkLoop fuel chunkRest2 s true
      else
        if failed then matchChunkLoop fuel chunkRest s true
        else
          match s with
          | x :: xs => matchChunkLoop fuel chunkRest xs (decide (c ≠ x))
          | [] => matchChunkLoop fuel chunkRest s true

/-- Go matchChunk: each loop iteration consumes at least one chunk
character, so chunk.length + 1 fuel always suffices. -/
def matchChunk (chunk s : List Char) : ChunkRes :=
  matchChunkLoop (chunk.length + 1) chunk s false

/-- The validity sweep Match runs before returning a false result: every
remaining chunk of the pattern is parsed against the empty name so a bad
pattern is still reported. Returns true when no error was found. -/
def validRestLoop : Nat → List Char → Bool
  | 0, _ => false
  | fuel + 1, pattern =>
    match pattern with
    | [] => true
    | _ :: _ =>
      let sc := scanChunk pattern
      match matchChunk sc.2.1 [] with
      | ChunkRes.err => false
      | _ => validRestLoop fuel sc.2.2

mutual

/-- The Pattern loop of Go path.Match. Returns (matched, err). Each
iteration consumes at least one pattern character and the star loop
consumes name characters, so pattern.length + name.length + 1 fuel always
suffices; exhausted fuel (unreachable) reports an error. -/
def matchLoop : Nat → List Char → List Char → Bool × Bool
  | 0, _, _ => (false, true)
  | fuel + 1, pattern, name =>
    match pattern with
    | [] => (name.isEmpty, false)
    | _ :: _ =>
      let sc := scanChunk pattern
      let star := sc.1
      let chunk := sc.2.1
      let rest := sc.2.2
      if star && chunk.isEmpty then (!(name.contains '/'), false)
      else
        match matchChunk chunk name with
        | ChunkRes.ok t =>
          if t.isEmpty || !rest.isEmpty then matchLoop fuel rest t
          else if star then starLoop fuel chunk rest name
          else if validRestLoop (rest.length + 1) rest then (false, false)
          else (false, true)
        | ChunkRes.err => (false, true)
        | ChunkRes.failed =>
          if star then starLoop fuel chunk rest name
          else if validRestLoop (rest.length + 1) rest then (false, false)
          else (false, true)

/-- The star retry loop of Go path.Match: tries to match the chunk at every
later position of the name, not skipping a slash, then falls back to the
validity sweep. -/
def starLoop : Nat → List Char → List Char → List Char → Bool × Bool
  | 0, _, _, _ => (false, true)
  | fuel + 1, chunk, rest, name =>
    match name with
    | [] =>
      if validRestLoop (rest.length + 1) rest then (false, false) else (false, true)
    | x :: xs =>
      if x = '/' then
        if validRestLoop (rest.length + 1) rest then (false, false) else (false, true)
      else
        match matchChunk chunk xs with
        | ChunkRes.ok t =>
          if rest.isEmpty && !t.isEmpty then starLoop fuel chunk rest xs
          else matchLoop fuel rest t
        | ChunkRes.err => (false, true)
        | ChunkRes.failed => starLoop fuel chunk rest xs

end

/-- Go path.Match (pattern, name) = (matched, err modeled as Bool). -/
def goMatch (pattern name : List Char) : Bool × Bool :=
  matchLoop (pattern.length + name.length + 1) pattern name

/-- path.Match on Lean strings. -/
def goMatchS (pattern name : String) : Bool × Bool :=
  goMatch pattern.data name.data

/- ===== Emitter.matched ===== -/

/-- Emitter.matched, over the list of registered topic keys (the Range over
listMans visits each key once). For each key the code first runs
path.Match(topic, key); an error there makes the Range callback return
false, aborting the whole iteration with the matches accumulated so far
(the Bool result records that abort / returned error). Otherwise a failed
forward match falls back to path.Match(key, topic) whose error is ignored. -/
def matchedGo (q : String) : List String → List String × Bool
  | [] => ([], false)
  | k :: rest =>
    let m := goMatchS q k
    if m.2 then ([], true)
    else if m.1 then
      let r := matchedGo q rest
      (k :: r.1, r.2)
    else if (goMatchS k q).1 then
      let r := matchedGo q rest
      (k :: r.1, r.2)
    else matchedGo q rest

/- ===== Events, flags and middlewares ===== -/

/-- Flag is an int bitmask. -/
abbrev Flag := Nat

/-- FlagOnce indicates to remove the listener after first sending. -/
def FlagOnce : Flag := 1

/-- FlagVoid indicates to skip sending. -/
def FlagVoid : Flag := 2

/-- FlagSkip indicates to skip sending if channel is blocked. -/
def FlagSkip : Flag := 4

/-- BasicEvent: topic, flag bitmask and an opaque subject (modeled as Nat). -/
structure BasicEvent where
  topic : String
  flag : Flag
  subject : Nat
deriving DecidableEq, Repr

/-- BasicEvent.Clone returns a copy of the event. -/
def BasicEvent.Clone (e : BasicEvent) : BasicEvent :=
  { topic := e.topic, flag := e.flag, subject := e.subject }

/-- A middleware is a func(Event) mutating the event in place. For the
events of this package (BasicEvent, EventOf) the only mutator the Event
interface exposes is SetFlag, so the net effect of one middleware call is a
new flag value computed from the event it observes. -/
abbrev Mw := BasicEvent → Flag

/-- Once middleware sets FlagOnce flag for an event. -/
def Once : Mw := fun e => e.flag ||| FlagOnce

/-- Void middleware sets FlagVoid flag for an event. -/
def Void : Mw := fun e => e.flag ||| FlagVoid

/-- Skip middleware sets FlagSkip flag for an event. -/
def Skip : Mw := fun e => e.flag ||| FlagSkip

/-- applyMiddlewares runs the middlewares on the event in slice order. -/
def applyMiddlewares (e : BasicEvent) : List Mw → BasicEvent
  | [] => e
  | f :: fs => applyMiddlewares { e with flag := f e } fs

/- ===== The subscription channel: send / pushEvent ===== -/

/-- What wakes up a delivery attempt that suspended inside a blocking
select: the target channel is closed, the done channel fires, or the
consumer makes room in the mailbox. -/
inductive Wake where
  | chClosed : Wake
  | doneFired : Wake
  | roomMade : Wake

/-- send models the select statements of the source, given the state of the
channels when the attempt runs: whether done has fired, whether the mailbox
has room, whether it is closed, and the wait flag. Sending on a closed
channel panics; the deferred recover turns the panic into
(sent := false, canceled := false). A blocking send with nothing ready
suspends, modeled as none and resolved by sendResume. When several select
cases are ready Go picks one at random; the model resolves the choice by
the fixed priority closed, room, done, which claims below do not depend
on. -/
def send (doneFired room closed wait : Bool) : Option (Bool × Bool) :=
  if closed then some (false, false)
  else if room then some (true, false)
  else if doneFired then some (false, true)
  else if wait then none
  else some (false, false)

/-- Resolution of a suspended blocking send: closure of the channel panics
and is recovered to (false, false); the done channel yields the canceled
path; room made by the consumer completes the send. -/
def sendResume : Wake → Bool × Bool
  | Wake.chClosed => (false, false)
  | Wake.doneFired => (false, true)
  | Wake.roomMade => (true, false)

/-- The flag unwinding and outcome judgment of pushEvent, applied to the
(sent, canceled) pair produced by send: success is sent, and remove is
isOnce exactly on the non-canceled sent path. -/
def pushEventOutcome (flag : Flag) (sc : Bool × Bool) : Bool × Bool :=
  let isOnce := flag ||| FlagOnce == flag
  if !sc.1 && !sc.2 then (sc.1, false)
  else if !sc.2 then (sc.1, isOnce)
  else (sc.1, false)

/-- pushEvent: computes isSkip from the event flag, runs send with
wait = not isSkip, and judges the outcome. none models an attempt that is
still suspended in a blocking send. -/
def pushEvent (doneFired room closed : Bool) (flag : Flag) : Option (Bool × Bool) :=
  let isSkip := flag ||| FlagSkip == flag
  (send doneFired room closed (!isSkip)).map (pushEventOutcome flag)

/- ===== The subscription worker: observe ===== -/

/-- The worker loop of a subscription: for e := range ch, invoke the
listener. The handle argument abstracts listener.Handle; handle e = false
models an invocation that faults internally (panics). The loop contains no
recover, so per Go semantics the panic propagates and aborts the drain.
Result: the events whose handling completed, and whether the worker
survived (false = the goroutine died in a panic, which in Go also
terminates the process). -/
def observe (handle : BasicEvent → Bool) : List BasicEvent → List BasicEvent × Bool
  | [] => ([], true)
  | e :: rest =>
    if handle e then
      let r := observe handle rest
      (e :: r.1, r.2)
    else ([], false)

/- ===== The typed listener adapter ===== -/

/-- An event value together with its dynamic (concrete) type: basic models
a *BasicEvent made by NewEvent, ofTy ty models a *EventOf[T] made by
NewEventOf with the type parameter T encoded as the tag ty. -/
inductive DynEvent where
  | basic : String → Flag → Nat → DynEvent
  | ofTy : Nat → String → Flag → Nat → DynEvent
deriving DecidableEq, Repr

/-- Whether the concrete type of the event is *EventOf[T] for the type
tagged ty: the predicate decided by the type assertion in the adapter. -/
def isEventOf (ty : Nat) : DynEvent → Bool
  | DynEvent.ofTy ty2 _ _ _ => ty2 == ty
  | DynEvent.basic _ _ _ => false

/-- ListenerFuncOf[T].Handle: the type assertion e.(*EventOf[T]) guards the
call of the wrapped function; on failure it returns with no other effect.
The result lists the events the wrapped function was invoked on. -/
def ListenerFuncOfHandle (ty : Nat) (e : DynEvent) : List DynEvent :=
  match e with
  | DynEvent.ofTy ty2 t f s =>
    if ty2 = ty then [DynEvent.ofTy ty2 t f s] else []
  | DynEvent.basic _ _ _ => []

/- ===== The Emitter ===== -/

/-- listenerManager: the channel is modeled by its buffered contents (ch),
its capacity (chCap) and its closed state (chClosed); the listener is
identified by its pointer address string, exactly the key the registry
uses (fmt.Sprintf of the listener pointer). -/
structure listenerManager where
  ch : List BasicEvent
  chCap : Nat
  chClosed : Bool
  middlewares : List Mw
  listener : String

/-- newListenerManager: fresh open channel of the given capacity. The
worker goroutine it spawns is modeled separately by observe. -/
def newListenerManager (capacity : Nat) (listener : String) (middlewares : List Mw) :
    listenerManager :=
  { ch := [], chCap := capacity, chClosed := false
    middlewares := middlewares, listener := listener }

/-- Emitter: capacity for new subscription channels, the topic registry
(sync.Map from topic to a sync.Map from listener address to manager) and
the middleware registry (sync.Map from pattern to middleware slice), both
modeled as association lists in iteration order. -/
structure Emitter where
  Cap : Nat
  listMans : List (String × List listenerManager)
  middlewares : List (String × List Mw)

/-- New returns a fresh Emitter with the given channel capacity. -/
def New (capacity : Nat) : Emitter :=
  { Cap := capacity, listMans := [], middlewares := [] }

/-- The topic keys of a registry, in iteration order. -/
def regTopics (reg : List (String × List listenerManager)) : List String :=
  reg.map (fun e => e.1)

/-- The topic keys of the emitter registry. -/
def topicsOf (st : Emitter) : List String :=
  regTopics st.listMans

/-- Topics returns all existing topics. -/
def Emitter.Topics (st : Emitter) : List String :=
  topicsOf st

/-- Whether listener key k is registered under topic entry t. -/
def keyUnderB (k t : String) (reg : List (String × List listenerManager)) : Bool :=
  reg.any (fun e => e.1 == t && e.2.any (fun lm => lm.listener == k))

/-- sync.Map Store on the listener map of one topic: replace the manager
stored under the same listener key, else add it. -/
def storeLM (key : String) (lm : listenerManager) :
    List listenerManager → List listenerManager
  | [] => [lm]
  | x :: rest => if x.listener = key then lm :: rest else x :: storeLM key lm rest

/-- On: create a manager with the emitter capacity and store it in the
topic entry (LoadOrStore of the topic, then Store under the listener key). -/
def Emitter.On (st : Emitter) (topic key : String) (middlewares : List Mw) : Emitter :=
  let lm := newListenerManager st.Cap key middlewares
  let reg :=
    if st.listMans.any (fun e => e.1 == topic) then
      st.listMans.map (fun e => if e.1 = topic then (e.1, storeLM key lm e.2) else e)
    else st.listMans ++ [(topic, [lm])]
  { st with listMans := reg }

/-- Once works exactly like On but passes append(middlewares, Once), the
caller middlewares with the Once middleware appended after them. -/
def Emitter.Once (st : Emitter) (topic key : String) (middlewares : List Mw) : Emitter :=
  st.On topic key (middlewares ++ [emitter.Once])

/-- Use registers middlewares for the pattern; an empty list deletes the
entry. -/
def Emitter.Use (st : Emitter) (pattern : String) (middlewares : List Mw) : Emitter :=
  if middlewares.isEmpty then
    { st with middlewares := st.middlewares.filter (fun e => e.1 != pattern) }
  else if st.middlewares.any (fun e => e.1 == pattern) then
    { st with middlewares :=
        st.middlewares.map (fun e => if e.1 = pattern then (e.1, middlewares) else e) }
  else { st with middlewares := st.middlewares ++ [(pattern, middlewares)] }

/-- One pass of Off for one matched topic t: the Range over the registry
keeps entries of other topics; with no listener arguments it closes every
manager of t (dropAll) and deletes the entry; with listener arguments it
closes and drops the named managers (dropMany) and deletes the entry only
when it became empty. The second component records which (topic, listener)
channels were closed. -/
def offOne (t : String) (ls : List String) :
    List (String × List listenerManager) →
      List (String × List listenerManager) × List (String × String)
  | [] => ([], [])
  | e :: rest =>
    let r := offOne t ls rest
    if e.1 = t then
      if ls.isEmpty then
        (r.1, e.2.map (fun lm => (t, lm.listener)) ++ r.2)
      else
        let remaining := e.2.filter (fun lm => !ls.contains lm.listener)
        let closedNow := (e.2.filter (fun lm => ls.contains lm.listener)).map
          (fun lm => (t, lm.listener))
        if remaining.isEmpty then (r.1, closedNow ++ r.2)
        else ((e.1, remaining) :: r.1, closedNow ++ r.2)
    else (e :: r.1, r.2)

/-- The loop of Off over the matched topics, threading the registry and
accumulating the closed channels. -/
def offFold (ls : List String) :
    List String →
      List (String × List listenerManager) × List (String × String) →
        List (String × List listenerManager) × List (String × String)
  | [], acc => acc
  | t :: ms, acc =>
    let o := offOne t ls acc.1
    offFold ls ms (o.1, acc.2 ++ o.2)

/-- Off: resolve the matched topics (discarding the error, as the source
does) and run one removal pass per matched topic. Returns the new state and
the ghost list of closed (topic, listener) channels. -/
def Emitter.Off (st : Emitter) (topic : String) (listeners : List String) :
    Emitter × List (String × String) :=
  let ms := (matchedGo topic (topicsOf st)).1
  let r := offFold listeners ms (st.listMans, [])
  ({ st with listMans := r.1 }, r.2)

/-- Listeners returns the listeners of every matched topic, discarding the
match error as the source does. -/
def Emitter.Listeners (st : Emitter) (topic : String) : List String :=
  let ms := (matchedGo topic (topicsOf st)).1
  ms.foldl (fun acc t =>
    st.listMans.foldl (fun acc2 e =>
      if e.1 = t then acc2 ++ e.2.map (fun lm => lm.listener) else acc2) acc) []

/-- getMiddlewares collects the middleware chains whose pattern matches the
topic in either direction, ignoring match errors. -/
def getMiddlewaresOf (mws : List (String × List Mw)) (topic : String) : List Mw :=
  mws.foldl (fun acc e =>
    if (goMatchS e.1 topic).1 then acc ++ e.2
    else if (goMatchS topic e.1).1 then acc ++ e.2
    else acc) []

/-- getMiddlewares on the emitter state. -/
def Emitter.getMiddlewares (st : Emitter) (topic : String) : List Mw :=
  getMiddlewaresOf st.middlewares topic

/- ===== Emit ===== -/

/-- One delivery attempt of an emit call, as recorded for a subscription:
the registered topic the fan-out found it under, the listener key, the
event it received after its own middlewares, whether the attempt was judged
sent and whether pushEvent asked for removal. -/
structure Delivery where
  topic : String
  key : String
  event : BasicEvent
  sent : Bool
  remove : Bool
deriving DecidableEq, Repr

/-- The delivery attempt against one manager, via pushEvent. During one
emit call the done channel cannot have fired before an attempt of the same
call completes (close(done) follows wg.Wait), so doneFired is false, and a
blocking attempt suspended on a full open mailbox is resolved by the worker
draining it (sendResume Wake.roomMade). -/
def deliverLM (lm : listenerManager) (e : BasicEvent) : listenerManager × Bool × Bool :=
  match pushEvent false (decide (lm.ch.length < lm.chCap)) lm.chClosed e.flag with
  | some (success, remove) =>
    (if success then { lm with ch := lm.ch ++ [e] } else lm, success, remove)
  | none =>
    let o := pushEventOutcome e.flag (sendResume Wake.roomMade)
    ({ lm with ch := lm.ch ++ [e] }, o.1, o.2)

/-- Fan-out to the managers of one topic entry: clone the shared event,
apply the listener scoped middlewares, skip entirely when the Void bit is
set, otherwise run one delivery attempt. -/
def fanoutSubs (t : String) (event : BasicEvent) :
    List listenerManager → List listenerManager × List Delivery
  | [] => ([], [])
  | lm :: rest =>
    let evn := applyMiddlewares event.Clone lm.middlewares
    if evn.flag ||| FlagVoid = evn.flag then
      let r := fanoutSubs t event rest
      (lm :: r.1, r.2)
    else
      let d := deliverLM lm evn
      let r := fanoutSubs t event rest
      (d.1 :: r.1,
        { topic := t, key := lm.listener, event := evn,
          sent := d.2.1, remove := d.2.2 } :: r.2)

/-- The Range of Emit over the registry for one matched topic: entries of
other topics pass through unchanged. -/
def fanoutReg (t : String) (event : BasicEvent) :
    List (String × List listenerManager) →
      List (String × List listenerManager) × List Delivery
  | [] => ([], [])
  | e :: rest =>
    if e.1 = t then
      let s := fanoutSubs t event e.2
      let r := fanoutReg t event rest
      ((e.1, s.1) :: r.1, s.2 ++ r.2)
    else
      let r := fanoutReg t event rest
      (e :: r.1, r.2)

/-- The topic loop of Emit: per matched topic the pattern scoped
middlewares are applied once to the shared event (which stays mutated for
the following topics, as in the source), then the fan-out runs. -/
def emitFan : Emitter → BasicEvent → List String → Emitter × List Delivery
  | st, _, [] => (st, [])
  | st, event, t :: rest =>
    let sh := applyMiddlewares event (st.getMiddlewares t)
    let f := fanoutReg t sh st.listMans
    let r := emitFan { st with listMans := f.1 } sh rest
    (r.1, f.2 ++ r.2)

/-- The deferred removal calls of one emit, applied after the fan-out: one
Off(event.Topic(), listener) per removal flagged delivery. -/
def removeFold : Emitter × List (String × String) → List Delivery →
    Emitter × List (String × String)
  | acc, [] => acc
  | acc, d :: ds =>
    let o := Emitter.Off acc.1 d.event.topic [d.key]
    removeFold (o.1, acc.2 ++ o.2) ds

/-- Emit: resolve matched topics (error discarded), fan out, then run the
deferred Off(event.Topic(), listener) calls for every delivery whose
pushEvent outcome asked for removal. Returns the final state, the delivery
records and the ghost list of closed channels. The done channel is modeled
by totality: it closes after every attempt has resolved. -/
def Emitter.Emit (st : Emitter) (event : BasicEvent) :
    Emitter × List Delivery × List (String × String) :=
  let ms := (matchedGo event.topic (topicsOf st)).1
  let fan := emitFan st event ms
  let removals := fan.2.filter (fun d => d.remove)
  let post := removeFold (fan.1, []) removals
  (post.1, fan.2, post.2)

/- ===== Specification side definitions (for refinement statements) ===== -/

/-- Projection of a delivery list to (topic, key, received event) triples;
mailbox bookkeeping is dropped. -/
def dsEvents (ds : List Delivery) : List (String × String × BasicEvent) :=
  ds.map (fun d => (d.topic, d.key, d.event))

/-- The part of the registry that determines which event each subscription
receives: per topic entry, the listener keys with their own listener scoped
middleware chains. -/
def regSkel (reg : List (String × List listenerManager)) :
    List (String × List (String × List Mw)) :=
  reg.map (fun e => (e.1, e.2.map (fun lm => (lm.listener, lm.middlewares))))

/-- Modelled from the spec: the subscriptions of one topic entry each
receive a private clone of the shared event transformed by their own
listener scoped middlewares alone, and a Void result suppresses the
delivery. -/
def subEventsSpec (t : String) (sh : BasicEvent) :
    List (String × List Mw) → List (String × String × BasicEvent)
  | [] => []
  | (k, ms) :: rest =>
    let evn := applyMiddlewares sh.Clone ms
    if evn.flag ||| FlagVoid = evn.flag then subEventsSpec t sh rest
    else (t, k, evn) :: subEventsSpec t sh rest

/-- Modelled from the spec: the fan-out of one topic over the registry
skeleton. -/
def regEventsSpec (t : String) (sh : BasicEvent) :
    List (String × List (String × List Mw)) → List (String × String × BasicEvent)
  | [] => []
  | e :: rest =>
    (if e.1 = t then subEventsSpec t sh e.2 else []) ++ regEventsSpec t sh rest

/-- Modelled from the spec: per matched topic the pattern scoped
middlewares run once on the shared event before the fan-out of that topic
begins, and every subscription under the topic then receives its own
private copy derived from that shared event. -/
def emitEventsSpec (skel : List (String × List (String × List Mw)))
    (mws : List (String × List Mw)) :
    BasicEvent → List String → List (String × String × BasicEvent)
  | _, [] => []
  | sh, t :: rest =>
    let sh2 := applyMiddlewares sh (getMiddlewaresOf mws t)
    regEventsSpec t sh2 skel ++ emitEventsSpec skel mws sh2 rest

/-- A probing caller middleware: it records (by setting bit 8) whether the
Once bit was already visible when it ran. -/
def probe : Mw :=
  fun e => if e.flag ||| FlagOnce = e.flag then e.flag ||| 8 else e.flag

/-- The listener scoped middleware chain stored for (topic, key). -/
def subMids (st : Emitter) (topic key : String) : List Mw :=
  st.listMans.foldl (fun acc e =>
    if e.1 = topic then
      e.2.foldl (fun acc2 lm => if lm.listener = key then lm.middlewares else acc2) acc
    else acc) []

/- ===== Concrete fixtures used by witnesses ===== -/

/-- A concrete event with no flags. -/
def evW : BasicEvent := { topic := "x", flag := 0, subject := 0 }

/-- Capacity one emitter holding one Once subscription on topic t. -/
def stOnceW : Emitter := (New 1).Once "t" "k" []

/-- Capacity zero emitter with one plain subscription per topic a and b. -/
def stOffW : Emitter := ((New 0).On "a" "k1" []).On "b" "k2" []

/-- Emitter whose single registered topic is the star pattern. -/
def stStarW : Emitter := (New 0).On "*" "L" []

/-- A manager whose only listener scoped middleware is Void. -/
def lmVoidW : listenerManager := newListenerManager 0 "k" [Void]

/-- A capacity zero manager: its mailbox is always full. -/
def lmFullW : listenerManager := newListenerManager 0 "k" []

/-- The scan of matched visits the keys in order and aborts at the first
forward match error: reaches q t keys states that an occurrence of t is
scanned before any such error. -/
def reaches (q t : String) : List String → Bool
  | [] => false
  | k :: rest => !(goMatchS q k).2 && (k == t || reaches q t rest)

/- ===================== Helper lemmas ===================== -/

/-- Sanity: a trailing star pattern matches any slash free name, even a
malformed one, without error. -/
theorem goMatchS_star_lbracket : goMatchS "*" "[" = (true, false) := by decide

/-- Sanity: a lone open bracket is a bad pattern. -/
theorem goMatchS_lbracket_err : goMatchS "[" "*" = (false, true) := by decide

/-- When the query never triggers ErrBadPattern in the forward direction,
matched returns exactly the keys matching in either direction (a malformed
key is no-match for its own pair only) and reports no error. -/
theorem matchedGo_eq_filter (q : String) (keys : List String)
    (herr : ∀ k ∈ keys, (goMatchS q k).2 = false) :
    matchedGo q keys =
      (keys.filter (fun k => (goMatchS q k).1 || (goMatchS k q).1), false) := by
  induction keys with
  | nil => simp [matchedGo]
  | cons k rest ih =>
    have hk : (goMatchS q k).2 = false := herr k (by simp)
    have ihr := ih (fun x hx => herr x (by simp [hx]))
    by_cases h1 : (goMatchS q k).1 = true
    · simp [matchedGo, hk, h1, ihr, List.filter_cons]
    · by_cases h2 : (goMatchS k q).1 = true
      · simp [matchedGo, hk, h1, h2, ihr, List.filter_cons]
      · simp [matchedGo, hk, h1, h2, ihr, List.filter_cons]

/-- Members of the matched list are registered keys. -/
theorem matchedGo_mem_keys (q : String) (keys : List String) (k : String)
    (hk : k ∈ (matchedGo q keys).1) : k ∈ keys := by
  induction keys with
  | nil => simp [matchedGo] at hk
  | cons x rest ih =>
    simp only [matchedGo] at hk
    by_cases he : (goMatchS q x).2 = true
    · simp [he] at hk
    · simp only [Bool.not_eq_true] at he
      by_cases h1 : (goMatchS q x).1 = true
      · simp [he, h1] at hk
        rcases hk with h | h
        · simp [h]
        · exact List.mem_cons_of_mem _ (ih h)
      · by_cases h2 : (goMatchS x q).1 = true
        · simp [he, h1, h2] at hk
          rcases hk with h | h
          · simp [h]
          · exact List.mem_cons_of_mem _ (ih h)
        · simp [he, h1, h2] at hk
          exact List.mem_cons_of_mem _ (ih hk)

/-- Middlewares only call SetFlag, so the topic is never changed. -/
theorem applyMiddlewares_topic (e : BasicEvent) (fns : List Mw) :
    (applyMiddlewares e fns).topic = e.topic := by
  induction fns generalizing e with
  | nil => rfl
  | cons f fs ih => simpa [applyMiddlewares] using ih _

/-- applyMiddlewares never changes the subject either. -/
theorem applyMiddlewares_subject (e : BasicEvent) (fns : List Mw) :
    (applyMiddlewares e fns).subject = e.subject := by
  induction fns generalizing e with
  | nil => rfl
  | cons f fs ih => simpa [applyMiddlewares] using ih _

/-- A delivery attempt never changes the listener key or the middleware
chain of the manager, nor its capacity or closed state. -/
theorem deliverLM_fields (lm : listenerManager) (e : BasicEvent) :
    (deliverLM lm e).1.listener = lm.listener ∧
    (deliverLM lm e).1.middlewares = lm.middlewares := by
  unfold deliverLM
  rcases h : pushEvent false (decide (lm.ch.length < lm.chCap)) lm.chClosed e.flag with
    _ | ⟨s, r⟩
  · simp [h]
  · cases s <;> simp [h]

/-- The removal verdict of a delivery attempt is exactly sent combined with
the Once bit of the delivered event. -/
theorem deliverLM_remove (lm : listenerManager) (e : BasicEvent) :
    (deliverLM lm e).2.2 =
      ((deliverLM lm e).2.1 && (e.flag ||| FlagOnce == e.flag)) := by
  cases hc : lm.chClosed <;>
    cases hr : decide (lm.ch.length < lm.chCap) <;>
      cases hs : (e.flag ||| FlagSkip == e.flag) <;>
        simp [deliverLM, pushEvent, send, sendResume, pushEventOutcome, hc, hr, hs]

/-- any over a mapped list, for maps across different element types. -/
theorem list_any_map {α β : Type} (f : α → β) (p : β → Bool) (l : List α) :
    (l.map f).any p = l.any (fun a => p (f a)) := by
  induction l with
  | nil => rfl
  | cons x xs ih => simp [List.any_cons, ih]

/-- keyUnderB only depends on the registry skeleton. -/
theorem keyUnderB_skel (k t : String) (reg : List (String × List listenerManager)) :
    keyUnderB k t reg =
      (regSkel reg).any (fun e => e.1 == t && e.2.any (fun p => p.1 == k)) := by
  simp [keyUnderB, regSkel, list_any_map]

/-- The topic list only depends on the registry skeleton. -/
theorem regTopics_skel (reg : List (String × List listenerManager)) :
    regTopics reg = (regSkel reg).map (fun e => e.1) := by
  simp [regTopics, regSkel]

/-- Fan-out over one entry preserves each manager's key and middlewares. -/
theorem fanoutSubs_skel (t : String) (e : BasicEvent) (subs : List listenerManager) :
    (fanoutSubs t e subs).1.map (fun lm => (lm.listener, lm.middlewares)) =
      subs.map (fun lm => (lm.listener, lm.middlewares)) := by
  induction subs with
  | nil => rfl
  | cons lm rest ih =>
    by_cases hv : (applyMiddlewares e.Clone lm.middlewares).flag ||| FlagVoid =
        (applyMiddlewares e.Clone lm.middlewares).flag
    · simp [fanoutSubs, hv, ih]
    · simp [fanoutSubs, hv, ih, (deliverLM_fields lm _).1, (deliverLM_fields lm _).2]

/-- Fan-out over the registry preserves its skeleton. -/
theorem fanoutReg_skel (t : String) (e : BasicEvent)
    (reg : List (String × List listenerManager)) :
    regSkel (fanoutReg t e reg).1 = regSkel reg := by
  induction reg with
  | nil => rfl
  | cons en rest ih =>
    by_cases he : en.1 = t
    · simp [fanoutReg, he, regSkel, fanoutSubs_skel] at ih ⊢
      exact ih
    · simp [fanoutReg, he, regSkel] at ih ⊢
      exact ih

/-- Every delivery record of one entry's fan-out: under the right topic,
with the event derived from the shared event by the manager's own
middlewares (topic preserved), removal exactly on sent with Once, never a
Void event, and the manager is in the entry. -/
theorem fanoutSubs_mem (t : String) (e : BasicEvent) (subs : List listenerManager)
    (d : Delivery) (hd : d ∈ (fanoutSubs t e subs).2) :
    d.topic = t ∧ d.event.topic = e.topic ∧
    d.remove = (d.sent && (d.event.flag ||| FlagOnce == d.event.flag)) ∧
    d.event.flag ||| FlagVoid ≠ d.event.flag ∧
    ∃ lm ∈ subs, lm.listener = d.key := by
  induction subs with
  | nil => simp [fanoutSubs] at hd
  | cons lm rest ih =>
    by_cases hv : (applyMiddlewares e.Clone lm.middlewares).flag ||| FlagVoid =
        (applyMiddlewares e.Clone lm.middlewares).flag
    · simp only [fanoutSubs, hv, if_pos] at hd
      obtain ⟨h1, h2, h3, h4, lm2, hlm2, hk⟩ := ih hd
      exact ⟨h1, h2, h3, h4, lm2, List.mem_cons_of_mem _ hlm2, hk⟩
    · simp only [fanoutSubs, hv, if_neg, not_false_eq_true, List.mem_cons] at hd
      rcases hd with hd | hd
      · subst hd
        refine ⟨rfl, ?_, ?_, hv, lm, by simp, rfl⟩
        · simpa [BasicEvent.Clone] using
            applyMiddlewares_topic e.Clone lm.middlewares
        · exact deliverLM_remove lm _
      · obtain ⟨h1, h2, h3, h4, lm2, hlm2, hk⟩ := ih hd
        exact ⟨h1, h2, h3, h4, lm2, List.mem_cons_of_mem _ hlm2, hk⟩

/-- Every delivery record of a topic's fan-out over the registry. -/
theorem fanoutReg_mem (t : String) (e : BasicEvent)
    (reg : List (String × List listenerManager)) (d : Delivery)
    (hd : d ∈ (fanoutReg t e reg).2) :
    d.topic = t ∧ d.event.topic = e.topic ∧
    d.remove = (d.sent && (d.event.flag ||| FlagOnce == d.event.flag)) ∧
    d.event.flag ||| FlagVoid ≠ d.event.flag ∧
    keyUnderB d.key t reg = true := by
  induction reg with
  | nil => simp [fanoutReg] at hd
  | cons en rest ih =>
    by_cases he : en.1 = t
    · simp only [fanoutReg, he, if_pos, List.mem_append] at hd
      rcases hd with hd | hd
      · obtain ⟨h1, h2, h3, h4, lm2, hlm2, hk⟩ := fanoutSubs_mem t e en.2 d hd
        refine ⟨h1, h2, h3, h4, ?_⟩
        simp [keyUnderB, he]
        exact Or.inl ⟨lm2, hlm2, by simp [hk]⟩
      · obtain ⟨h1, h2, h3, h4, h5⟩ := ih hd
        refine ⟨h1, h2, h3, h4, ?_⟩
        simp [keyUnderB] at h5 ⊢
        exact Or.inr h5
    · simp only [fanoutReg, he, if_neg, not_false_eq_true] at hd
      obtain ⟨h1, h2, h3, h4, h5⟩ := ih hd
      refine ⟨h1, h2, h3, h4, ?_⟩
      simp [keyUnderB] at h5 ⊢
      exact Or.inr h5

/-- Transport of keyUnderB along equal skeletons. -/
theorem keyUnderB_eq_of_skel (k t : String)
    (r1 r2 : List (String × List listenerManager)) (h : regSkel r1 = regSkel r2) :
    keyUnderB k t r1 = keyUnderB k t r2 := by
  rw [keyUnderB_skel, keyUnderB_skel, h]

/-- Every delivery record of the topic loop of Emit: its topic is one of
the matched topics, its event keeps the emitted topic, removal is exactly
sent with Once, it is never Void, and its key is registered under its topic
in the starting registry. -/
theorem emitFan_mem (st : Emitter) (e : BasicEvent) (ms : List String) (d : Delivery)
    (hd : d ∈ (emitFan st e ms).2) :
    d.topic ∈ ms ∧ d.event.topic = e.topic ∧
    d.remove = (d.sent && (d.event.flag ||| FlagOnce == d.event.flag)) ∧
    d.event.flag ||| FlagVoid ≠ d.event.flag ∧
    keyUnderB d.key d.topic st.listMans = true := by
  induction ms generalizing st e with
  | nil => simp [emitFan] at hd
  | cons t rest ih =>
    simp only [emitFan, List.mem_append] at hd
    rcases hd with hd | hd
    · obtain ⟨h1, h2, h3, h4, h5⟩ :=
        fanoutReg_mem t (applyMiddlewares e (st.getMiddlewares t)) st.listMans d hd
      refine ⟨by simp [h1], ?_, h3, h4, ?_⟩
      · rw [h2, applyMiddlewares_topic]
      · rw [h1]; exact h5
    · obtain ⟨h1, h2, h3, h4, h5⟩ := ih _ _ hd
      refine ⟨List.mem_cons_of_mem _ h1, ?_, h3, h4, ?_⟩
      · rw [h2, applyMiddlewares_topic]
      · rw [← h5]
        exact (keyUnderB_eq_of_skel _ _ _ _ (fanoutReg_skel t _ st.listMans)).symm

/-- The topic loop preserves the registry skeleton and the middleware
registry. -/
theorem emitFan_state (st : Emitter) (e : BasicEvent) (ms : List String) :
    regSkel (emitFan st e ms).1.listMans = regSkel st.listMans ∧
    (emitFan st e ms).1.middlewares = st.middlewares := by
  induction ms generalizing st e with
  | nil => exact ⟨rfl, rfl⟩
  | cons t rest ih =>
    simp only [emitFan]
    obtain ⟨h1, h2⟩ := ih { st with listMans := (fanoutReg t _ st.listMans).1 }
      (applyMiddlewares e (st.getMiddlewares t))
    exact ⟨h1.trans (fanoutReg_skel t _ st.listMans), h2⟩

/-- Refinement of one entry's fan-out deliveries to the specification. -/
theorem fanoutSubs_events (t : String) (e : BasicEvent) (subs : List listenerManager) :
    dsEvents (fanoutSubs t e subs).2 =
      subEventsSpec t e (subs.map (fun lm => (lm.listener, lm.middlewares))) := by
  induction subs with
  | nil => rfl
  | cons lm rest ih =>
    by_cases hv : (applyMiddlewares e.Clone lm.middlewares).flag ||| FlagVoid =
        (applyMiddlewares e.Clone lm.middlewares).flag
    · simp [fanoutSubs, subEventsSpec, hv, dsEvents] at ih ⊢
      exact ih
    · simp [fanoutSubs, subEventsSpec, hv, dsEvents] at ih ⊢
      exact ih

/-- Refinement of a topic's fan-out deliveries to the specification. -/
theorem fanoutReg_events (t : String) (e : BasicEvent)
    (reg : List (String × List listenerManager)) :
    dsEvents (fanoutReg t e reg).2 = regEventsSpec t e (regSkel reg) := by
  induction reg with
  | nil => rfl
  | cons en rest ih =>
    have hs := fanoutSubs_events t e en.2
    by_cases he : en.1 = t
    · simp [fanoutReg, regEventsSpec, regSkel, he, dsEvents] at ih hs ⊢
      rw [hs, ih]
    · simp [fanoutReg, regEventsSpec, regSkel, he, dsEvents] at ih ⊢
      exact ih

/-- Refinement of the whole topic loop to the specification. -/
theorem emitFan_events (st : Emitter) (e : BasicEvent) (ms : List String) :
    dsEvents (emitFan st e ms).2 =
      emitEventsSpec (regSkel st.listMans) st.middlewares e ms := by
  induction ms generalizing st e with
  | nil => rfl
  | cons t rest ih =>
    simp only [emitFan, emitEventsSpec, dsEvents, List.map_append]
    have h1 := fanoutReg_events t (applyMiddlewares e (st.getMiddlewares t)) st.listMans
    have h2 := ih { st with listMans :=
      (fanoutReg t (applyMiddlewares e (st.getMiddlewares t)) st.listMans).1 }
      (applyMiddlewares e (st.getMiddlewares t))
    simp only [dsEvents] at h1 h2
    rw [h1, h2, fanoutReg_skel]
    rfl

/-- subEventsSpec distributes over concatenation of subscription lists. -/
theorem subEventsSpec_append (t : String) (sh : BasicEvent)
    (xs ys : List (String × List Mw)) :
    subEventsSpec t sh (xs ++ ys) =
      subEventsSpec t sh xs ++ subEventsSpec t sh ys := by
  induction xs with
  | nil => rfl
  | cons p rest ih =>
    obtain ⟨k, ms⟩ := p
    by_cases hv : (applyMiddlewares sh.Clone ms).flag ||| FlagVoid =
        (applyMiddlewares sh.Clone ms).flag
    · simp [subEventsSpec, hv, ih]
    · simp [subEventsSpec, hv, ih]

/-- fanoutSubs distributes over concatenation. -/
theorem fanoutSubs_append (t : String) (e : BasicEvent)
    (xs ys : List listenerManager) :
    fanoutSubs t e (xs ++ ys) =
      ((fanoutSubs t e xs).1 ++ (fanoutSubs t e ys).1,
       (fanoutSubs t e xs).2 ++ (fanoutSubs t e ys).2) := by
  induction xs with
  | nil => simp [fanoutSubs]
  | cons lm rest ih =>
    by_cases hv : (applyMiddlewares e.Clone lm.middlewares).flag ||| FlagVoid =
        (applyMiddlewares e.Clone lm.middlewares).flag
    · simp [fanoutSubs, hv, ih]
    · simp [fanoutSubs, hv, ih]

/-- keyUnderB as an existential over entries and managers. -/
theorem keyUnderB_iff (k t : String) (reg : List (String × List listenerManager)) :
    keyUnderB k t reg = true ↔
      ∃ e ∈ reg, e.1 = t ∧ ∃ lm ∈ e.2, lm.listener = k := by
  simp [keyUnderB, List.any_eq_true]

/-- Membership in the topic list as an existential over entries. -/
theorem regTopics_mem (x : String) (reg : List (String × List listenerManager)) :
    x ∈ regTopics reg ↔ ∃ e ∈ reg, e.1 = x := by
  simp [regTopics]

/-- Entries surviving an Off pass with no listener arguments are exactly
the entries of other topics. -/
theorem offOne_nil_mem (t0 : String) (reg : List (String × List listenerManager))
    (x : String × List listenerManager) (hx : x ∈ (offOne t0 [] reg).1) :
    x ∈ reg ∧ x.1 ≠ t0 := by
  induction reg with
  | nil => simp [offOne] at hx
  | cons en rest ih =>
    by_cases he : en.1 = t0
    · simp only [offOne, he, if_pos, List.isEmpty_nil] at hx
      obtain ⟨h1, h2⟩ := ih hx
      exact ⟨List.mem_cons_of_mem _ h1, h2⟩
    · simp only [offOne, he, if_neg, not_false_eq_true, List.mem_cons] at hx
      rcases hx with rfl | hx
      · exact ⟨by simp, he⟩
      · obtain ⟨h1, h2⟩ := ih hx
        exact ⟨List.mem_cons_of_mem _ h1, h2⟩

/-- Entries surviving an Off pass with named listeners: an untouched entry
of another topic, or the dropped topic's entry with the named listeners
filtered away, kept only when some manager remains. -/
theorem offOne_cons_mem (t0 a : String) (as : List String)
    (reg : List (String × List listenerManager))
    (x : String × List listenerManager) (hx : x ∈ (offOne t0 (a :: as) reg).1) :
    (x ∈ reg ∧ x.1 ≠ t0) ∨
      (∃ en ∈ reg, en.1 = t0 ∧
        x = (en.1, en.2.filter (fun lm => !(a :: as).contains lm.listener)) ∧
        en.2.filter (fun lm => !(a :: as).contains lm.listener) ≠ []) := by
  induction reg with
  | nil => simp [offOne] at hx
  | cons en rest ih =>
    by_cases he : en.1 = t0
    · by_cases hrem :
        (en.2.filter (fun lm => !(a :: as).contains lm.listener)).isEmpty = true
      · simp only [offOne, he, if_pos, List.isEmpty_cons, hrem] at hx
        rcases ih hx with ⟨h1, h2⟩ | ⟨en2, h1, h2, h3⟩
        · exact Or.inl ⟨List.mem_cons_of_mem _ h1, h2⟩
        · exact Or.inr ⟨en2, List.mem_cons_of_mem _ h1, h2, h3⟩
      · simp only [offOne, he, if_pos, List.isEmpty_cons, hrem, Bool.false_eq_true,
          if_false, List.mem_cons] at hx
        rcases hx with rfl | hx
        · refine Or.inr ⟨en, by simp, he, by rw [he], ?_⟩
          simpa [List.isEmpty_iff] using hrem
        · rcases ih hx with ⟨h1, h2⟩ | ⟨en2, h1, h2, h3⟩
          · exact Or.inl ⟨List.mem_cons_of_mem _ h1, h2⟩
          · exact Or.inr ⟨en2, List.mem_cons_of_mem _ h1, h2, h3⟩
    · simp only [offOne, he, if_neg, not_false_eq_true, List.mem_cons] at hx
      rcases hx with rfl | hx
      · exact Or.inl ⟨by simp, he⟩
      · rcases ih hx with ⟨h1, h2⟩ | ⟨en2, h1, h2, h3⟩
        · exact Or.inl ⟨List.mem_cons_of_mem _ h1, h2⟩
        · exact Or.inr ⟨en2, List.mem_cons_of_mem _ h1, h2, h3⟩

/-- Entries of other topics always survive an Off pass. -/
theorem offOne_keep_ne (t0 : String) (ls : List String)
    (reg : List (String × List listenerManager))
    (x : String × List listenerManager) (hx : x ∈ reg) (hne : x.1 ≠ t0) :
    x ∈ (offOne t0 ls reg).1 := by
  induction reg with
  | nil => simp at hx
  | cons en rest ih =>
    rcases List.mem_cons.mp hx with rfl | hx2
    · simp only [offOne, if_neg hne]
      exact List.mem_cons_self _ _
    · by_cases he : en.1 = t0
      · by_cases hl : ls.isEmpty = true
        · simp only [offOne, he, if_pos, hl, if_true]
          exact ih hx2
        · by_cases hrem :
            (en.2.filter (fun lm => !ls.contains lm.listener)).isEmpty = true
          · simp only [offOne, he, if_pos, hl, Bool.false_eq_true, if_false, hrem,
              if_true]
            exact ih hx2
          · simp only [offOne, he, if_pos, hl, Bool.false_eq_true, if_false, hrem]
            exact List.mem_cons_of_mem _ (ih hx2)
      · simp only [offOne, if_neg he]
        exact List.mem_cons_of_mem _ (ih hx2)

/-- The filtered entry of the dropped topic survives when it stays
nonempty. -/
theorem offOne_keep_eq (t0 a : String) (as : List String)
    (reg : List (String × List listenerManager))
    (en : String × List listenerManager) (hen : en ∈ reg) (he : en.1 = t0)
    (hrem : en.2.filter (fun lm => !(a :: as).contains lm.listener) ≠ []) :
    (en.1, en.2.filter (fun lm => !(a :: as).contains lm.listener)) ∈
      (offOne t0 (a :: as) reg).1 := by
  induction reg with
  | nil => simp at hen
  | cons en2 rest ih =>
    rcases List.mem_cons.mp hen with rfl | hen2
    · have hrem2 :
          (en.2.filter (fun lm => !(a :: as).contains lm.listener)).isEmpty = false := by
        simpa [List.isEmpty_iff] using hrem
      simp only [offOne, he, if_pos, List.isEmpty_cons, hrem2, Bool.false_eq_true,
        if_false]
      exact List.mem_cons_self _ _
    · by_cases he2 : en2.1 = t0
      · by_cases hrem2 :
          (en2.2.filter (fun lm => !(a :: as).contains lm.listener)).isEmpty = true
        · simp only [offOne, he2, if_pos, List.isEmpty_cons, hrem2, if_true]
          exact ih hen2
        · simp only [offOne, he2, if_pos, List.isEmpty_cons, hrem2,
            Bool.false_eq_true, if_false]
          exact List.mem_cons_of_mem _ (ih hen2)
      · simp only [offOne, if_neg he2]
        exact List.mem_cons_of_mem _ (ih hen2)

/-- An Off pass never adds a subscription: a key found afterwards was
there before. -/
theorem offOne_keyUnder_mono (t0 : String) (ls : List String)
    (reg : List (String × List listenerManager)) (k t : String)
    (h : keyUnderB k t (offOne t0 ls reg).1 = true) : keyUnderB k t reg = true := by
  rw [keyUnderB_iff] at h ⊢
  obtain ⟨e, he, het, lm, hlm, hk⟩ := h
  cases ls with
  | nil =>
    obtain ⟨h1, _⟩ := offOne_nil_mem t0 reg e he
    exact ⟨e, h1, het, lm, hlm, hk⟩
  | cons a as =>
    rcases offOne_cons_mem t0 a as reg e he with ⟨h1, _⟩ | ⟨en, h1, h2, h3, _⟩
    · exact ⟨e, h1, het, lm, hlm, hk⟩
    · refine ⟨en, h1, ?_, lm, ?_, hk⟩
      · have h4 := het
        rw [h3] at h4
        exact h4
      · rw [h3] at hlm
        exact (List.mem_filter.mp hlm).1

/-- The topics surviving an Off pass were topics before. -/
theorem offOne_topics_sub (t0 : String) (ls : List String)
    (reg : List (String × List listenerManager)) (x : String)
    (hx : x ∈ regTopics (offOne t0 ls reg).1) : x ∈ regTopics reg := by
  rw [regTopics_mem] at hx ⊢
  obtain ⟨e, he, hex⟩ := hx
  cases ls with
  | nil => exact ⟨e, (offOne_nil_mem t0 reg e he).1, hex⟩
  | cons a as =>
    rcases offOne_cons_mem t0 a as reg e he with ⟨h1, _⟩ | ⟨en, h1, h2, h3, _⟩
    · exact ⟨e, h1, hex⟩
    · exact ⟨en, h1, by rw [← hex, h3]⟩

/-- An Off pass of a topic with no listener arguments deletes that topic. -/
theorem offOne_removes_nil (t0 k : String)
    (reg : List (String × List listenerManager)) :
    keyUnderB k t0 (offOne t0 [] reg).1 = false := by
  by_contra h
  rw [Bool.not_eq_false, keyUnderB_iff] at h
  obtain ⟨e, he, het, _, _, _⟩ := h
  exact (offOne_nil_mem t0 reg e he).2 het

/-- An Off pass naming one listener removes that key from the topic. -/
theorem offOne_removes_single (t0 k : String)
    (reg : List (String × List listenerManager)) :
    keyUnderB k t0 (offOne t0 [k] reg).1 = false := by
  by_contra h
  rw [Bool.not_eq_false, keyUnderB_iff] at h
  obtain ⟨e, he, het, lm, hlm, hk⟩ := h
  rcases offOne_cons_mem t0 k [] reg e he with ⟨_, h2⟩ | ⟨en, _, _, h3, _⟩
  · exact h2 het
  · rw [h3] at hlm
    have := (List.mem_filter.mp hlm).2
    simp [hk] at this

/-- An Off pass of one topic leaves the keys of every other topic alone. -/
theorem offOne_keyUnder_ne (t0 : String) (ls : List String)
    (reg : List (String × List listenerManager)) (k t : String) (hne : t ≠ t0) :
    keyUnderB k t (offOne t0 ls reg).1 = keyUnderB k t reg := by
  by_cases h : keyUnderB k t reg = true
  · rw [h]
    rw [keyUnderB_iff] at h ⊢
    obtain ⟨e, he, het, lm, hlm, hk⟩ := h
    exact ⟨e, offOne_keep_ne t0 ls reg e he (by rw [het]; exact hne), het, lm, hlm, hk⟩
  · rw [Bool.not_eq_true] at h
    rw [h]
    by_contra h2
    rw [Bool.not_eq_false] at h2
    rw [offOne_keyUnder_mono t0 ls reg k t h2] at h
    exact Bool.true_eq_false.mp h

/-- A key that is not among the named listeners survives an Off pass with
named listeners, under every topic. -/
theorem offOne_keep_key (t0 a : String) (as : List String)
    (reg : List (String × List listenerManager)) (k t : String)
    (hk : ¬ k ∈ a :: as) (hky : keyUnderB k t reg = true) :
    keyUnderB k t (offOne t0 (a :: as) reg).1 = true := by
  by_cases hne : t = t0
  · rw [hne] at hky ⊢
    rw [keyUnderB_iff] at hky ⊢
    obtain ⟨e, he, het, lm, hlm, hkk⟩ := hky
    have hmem : lm ∈ e.2.filter (fun lm => !(a :: as).contains lm.listener) := by
      rw [List.mem_filter]
      refine ⟨hlm, ?_⟩
      rw [hkk]
      simpa using hk
    refine ⟨(e.1, e.2.filter (fun lm => !(a :: as).contains lm.listener)),
      offOne_keep_eq t0 a as reg e he het (by intro hq; rw [hq] at hmem; simp at hmem),
      het, lm, hmem, hkk⟩
  · rw [offOne_keyUnder_ne t0 (a :: as) reg k t hne]
    exact hky

/-- A key under the tail registry is under the whole registry. -/
theorem keyUnderB_cons_of (k t : String) (en : String × List listenerManager)
    (rest : List (String × List listenerManager))
    (h : keyUnderB k t rest = true) : keyUnderB k t (en :: rest) = true := by
  rw [keyUnderB_iff] at h ⊢
  obtain ⟨e, he, het, lm, hlm, hk⟩ := h
  exact ⟨e, List.mem_cons_of_mem _ he, het, lm, hlm, hk⟩

/-- A key of the head entry is under the registry. -/
theorem keyUnderB_head (k : String) (en : String × List listenerManager)
    (rest : List (String × List listenerManager)) (lm : listenerManager)
    (hlm : lm ∈ en.2) (hk : lm.listener = k) :
    keyUnderB k en.1 (en :: rest) = true := by
  rw [keyUnderB_iff]
  exact ⟨en, by simp, rfl, lm, hlm, hk⟩

/-- A key under the cons registry but not in the head entry is under the
tail. -/
theorem keyUnderB_cons_cases (k t : String) (en : String × List listenerManager)
    (rest : List (String × List listenerManager))
    (h : keyUnderB k t (en :: rest) = true) :
    (en.1 = t ∧ ∃ lm ∈ en.2, lm.listener = k) ∨ keyUnderB k t rest = true := by
  rw [keyUnderB_iff] at h
  obtain ⟨e, he, het, lm, hlm, hk⟩ := h
  rcases List.mem_cons.mp he with rfl | he2
  · exact Or.inl ⟨het, lm, hlm, hk⟩
  · exact Or.inr (by rw [keyUnderB_iff]; exact ⟨e, he2, het, lm, hlm, hk⟩)

/-- Closed channels of one Off pass carry the dropped topic and a key that
was registered under it. -/
theorem offOne_closed_src (t0 : String) (ls : List String)
    (reg : List (String × List listenerManager)) (x : String × String)
    (hx : x ∈ (offOne t0 ls reg).2) :
    x.1 = t0 ∧ keyUnderB x.2 t0 reg = true := by
  induction reg with
  | nil => simp [offOne] at hx
  | cons en rest ih =>
    by_cases he : en.1 = t0
    · by_cases hl : ls.isEmpty = true
      · simp only [offOne, he, if_pos, hl, if_true, List.mem_append] at hx
        rcases hx with hx | hx
        · simp only [List.mem_map] at hx
          obtain ⟨lm, hlm, hxe⟩ := hx
          refine ⟨by rw [← hxe], ?_⟩
          rw [← hxe]
          rw [← he]
          exact keyUnderB_head _ en rest lm hlm rfl
        · obtain ⟨h1, h2⟩ := ih hx
          exact ⟨h1, keyUnderB_cons_of _ _ en rest h2⟩
      · by_cases hrem :
          (en.2.filter (fun lm => !ls.contains lm.listener)).isEmpty = true
        · simp only [offOne, he, if_pos, hl, Bool.false_eq_true, if_false, hrem,
            if_true, List.mem_append] at hx
          rcases hx with hx | hx
          · simp only [List.mem_map, List.mem_filter] at hx
            obtain ⟨lm, ⟨hlm, _⟩, hxe⟩ := hx
            refine ⟨by rw [← hxe], ?_⟩
            rw [← hxe]
            rw [← he]
            exact keyUnderB_head _ en rest lm hlm rfl
          · obtain ⟨h1, h2⟩ := ih hx
            exact ⟨h1, keyUnderB_cons_of _ _ en rest h2⟩
        · simp only [offOne, he, if_pos, hl, Bool.false_eq_true, if_false, hrem,
            List.mem_append] at hx
          rcases hx with hx | hx
          · simp only [List.mem_map, List.mem_filter] at hx
            obtain ⟨lm, ⟨hlm, _⟩, hxe⟩ := hx
            refine ⟨by rw [← hxe], ?_⟩
            rw [← hxe]
            rw [← he]
            exact keyUnderB_head _ en rest lm hlm rfl
          · obtain ⟨h1, h2⟩ := ih hx
            exact ⟨h1, keyUnderB_cons_of _ _ en rest h2⟩
    · simp only [offOne, he, if_neg, not_false_eq_true] at hx
      obtain ⟨h1, h2⟩ := ih hx
      exact ⟨h1, keyUnderB_cons_of _ _ en rest h2⟩

/-- An Off pass with no listener arguments closes every channel of the
dropped topic. -/
theorem offOne_closed_nil (t0 k : String)
    (reg : List (String × List listenerManager))
    (hk : keyUnderB k t0 reg = true) :
    (t0, k) ∈ (offOne t0 [] reg).2 := by
  induction reg with
  | nil => simp [keyUnderB] at hk
  | cons en rest ih =>
    rcases keyUnderB_cons_cases k t0 en rest hk with ⟨he, lm, hlm, hkk⟩ | hrest
    · simp only [offOne, he, if_pos, List.isEmpty_nil, if_true, List.mem_append]
      left
      simp only [List.mem_map]
      exact ⟨lm, hlm, by rw [hkk]⟩
    · by_cases he : en.1 = t0
      · simp only [offOne, he, if_pos, List.isEmpty_nil, if_true, List.mem_append]
        exact Or.inr (ih hrest)
      · simp only [offOne, he, if_neg, not_false_eq_true]
        exact ih hrest

/-- An Off pass naming one listener closes that listener's channel on the
dropped topic when it was registered there. -/
theorem offOne_closed_single (t0 k : String)
    (reg : List (String × List listenerManager))
    (hk : keyUnderB k t0 reg = true) :
    (t0, k) ∈ (offOne t0 [k] reg).2 := by
  induction reg with
  | nil => simp [keyUnderB] at hk
  | cons en rest ih =>
    rcases keyUnderB_cons_cases k t0 en rest hk with ⟨he, lm, hlm, hkk⟩ | hrest
    · have hmem : lm ∈ en.2.filter (fun lm => ([k] : List String).contains lm.listener) := by
        rw [List.mem_filter]
        exact ⟨hlm, by simp [hkk]⟩
      by_cases hrem :
          (en.2.filter (fun lm => !([k] : List String).contains lm.listener)).isEmpty = true
      · simp only [offOne, he, if_pos, List.isEmpty_cons, Bool.false_eq_true,
          if_false, hrem, List.mem_append]
        left
        simp only [List.mem_map]
        exact ⟨lm, hmem, by rw [hkk]⟩
      · simp only [offOne, he, if_pos, List.isEmpty_cons, hrem, Bool.false_eq_true,
          if_false, List.mem_append]
        left
        simp only [List.mem_map]
        exact ⟨lm, hmem, by rw [hkk]⟩
    · by_cases he : en.1 = t0
      · by_cases hrem :
            (en.2.filter (fun lm => !([k] : List String).contains lm.listener)).isEmpty = true
        · simp only [offOne, he, if_pos, List.isEmpty_cons, Bool.false_eq_true,
            if_false, hrem, List.mem_append]
          exact Or.inr (ih hrest)
        · simp only [offOne, he, if_pos, List.isEmpty_cons, hrem, Bool.false_eq_true,
            if_false, List.mem_append]
          exact Or.inr (ih hrest)
      · simp only [offOne, he, if_neg, not_false_eq_true]
        exact ih hrest

/-- An Off pass with no listener arguments deletes exactly the dropped
topic from the topic list. -/
theorem offOne_topics_nil (t0 : String)
    (reg : List (String × List listenerManager)) :
    regTopics (offOne t0 [] reg).1 = (regTopics reg).filter (fun K => K != t0) := by
  induction reg with
  | nil => rfl
  | cons en rest ih =>
    by_cases he : en.1 = t0
    · have hb : (t0 != t0) = false := by simp
      simp only [offOne, he, if_pos, List.isEmpty_nil, if_true, regTopics,
        List.map_cons, List.filter_cons, hb, Bool.false_eq_true, if_false] at ih ⊢
      exact ih
    · have hb : (en.1 != t0) = true := by simp [he]
      simp only [offOne, he, if_neg, not_false_eq_true, regTopics, List.map_cons,
        List.filter_cons, hb, if_true] at ih ⊢
      rw [ih]

/-- An Off pass keeps every surviving entry nonempty. -/
theorem offOne_nonempty (t0 : String) (ls : List String)
    (reg : List (String × List listenerManager))
    (hne : ∀ e ∈ reg, e.2 ≠ []) :
    ∀ e ∈ (offOne t0 ls reg).1, e.2 ≠ [] := by
  intro e he
  cases ls with
  | nil => exact hne e (offOne_nil_mem t0 reg e he).1
  | cons a as =>
    rcases offOne_cons_mem t0 a as reg e he with ⟨h1, _⟩ | ⟨en, _, _, h3, h4⟩
    · exact hne e h1
    · rw [h3]
      exact h4

/-- Dropping a pairing that does not exist is a no-op for one pass. -/
theorem offOne_noop (t0 k : String)
    (reg : List (String × List listenerManager))
    (hk : keyUnderB k t0 reg = false) (hne : ∀ e ∈ reg, e.2 ≠ []) :
    offOne t0 [k] reg = (reg, []) := by
  induction reg with
  | nil => rfl
  | cons en rest ih =>
    have hk2 : keyUnderB k t0 rest = false := by
      by_contra hcon
      rw [Bool.not_eq_false] at hcon
      rw [keyUnderB_cons_of k t0 en rest hcon] at hk
      exact Bool.true_eq_false.mp hk
    have hrec := ih hk2 (fun e he => hne e (List.mem_cons_of_mem _ he))
    by_cases he : en.1 = t0
    · have hnk : ∀ lm ∈ en.2, ¬ lm.listener = k := by
        intro lm hlm hkk
        have h1 : keyUnderB k t0 (en :: rest) = true := by
          rw [← he]
          exact keyUnderB_head k en rest lm hlm hkk
        rw [h1] at hk
        exact Bool.true_eq_false.mp hk
      have hfilt : en.2.filter (fun lm => !([k] : List String).contains lm.listener) = en.2 := by
        apply List.filter_eq_self.mpr
        intro lm hlm
        simpa using hnk lm hlm
      have hfilt2 : en.2.filter (fun lm => ([k] : List String).contains lm.listener) = [] := by
        apply List.filter_eq_nil_iff.mpr
        intro lm hlm
        simpa using hnk lm hlm
      have hrem :
          (en.2.filter (fun lm => !([k] : List String).contains lm.listener)).isEmpty = false := by
        rw [hfilt]
        simpa [List.isEmpty_iff] using hne en (by simp)
      have hne2 : en.2.isEmpty = false := by
        simpa [List.isEmpty_iff] using hne en (by simp)
      simp only [offOne, he, if_pos, List.isEmpty_cons, hrem, Bool.false_eq_true,
        if_false, hrec, hfilt, hfilt2, List.map_nil, List.nil_append, hne2]
      rw [← he]
    · simp only [offOne, he, if_neg, not_false_eq_true, hrec]

/- ----- the Off loop over matched topics ----- -/

/-- The Off loop only appends to the closed accumulator. -/
theorem offFold_cl_mono (ls ms : List String)
    (reg : List (String × List listenerManager)) (cl : List (String × String))
    (x : String × String) (hx : x ∈ cl) : x ∈ (offFold ls ms (reg, cl)).2 := by
  induction ms generalizing reg cl with
  | nil => exact hx
  | cons t2 ms2 ih =>
    simp only [offFold]
    exact ih _ _ (List.mem_append.mpr (Or.inl hx))

/-- The Off loop never adds a subscription. -/
theorem offFold_keyUnder_mono (ls ms : List String)
    (reg : List (String × List listenerManager)) (cl : List (String × String))
    (k t : String) (h : keyUnderB k t (offFold ls ms (reg, cl)).1 = true) :
    keyUnderB k t reg = true := by
  induction ms generalizing reg cl with
  | nil => exact h
  | cons t2 ms2 ih =>
    simp only [offFold] at h
    exact offOne_keyUnder_mono _ _ _ _ _ (ih _ _ h)

/-- The Off loop never adds a topic. -/
theorem offFold_topics_sub (ls ms : List String)
    (reg : List (String × List listenerManager)) (cl : List (String × String))
    (x : String) (hx : x ∈ regTopics (offFold ls ms (reg, cl)).1) :
    x ∈ regTopics reg := by
  induction ms generalizing reg cl with
  | nil => exact hx
  | cons t2 ms2 ih =>
    simp only [offFold] at hx
    exact offOne_topics_sub _ _ _ _ (ih _ _ hx)

/-- The Off loop keeps every surviving entry nonempty. -/
theorem offFold_nonempty (ls ms : List String)
    (reg : List (String × List listenerManager)) (cl : List (String × String))
    (hne : ∀ e ∈ reg, e.2 ≠ []) :
    ∀ e ∈ (offFold ls ms (reg, cl)).1, e.2 ≠ [] := by
  induction ms generalizing reg cl with
  | nil => exact hne
  | cons t2 ms2 ih =>
    simp only [offFold]
    exact ih _ _ (offOne_nonempty t2 ls reg hne)

/-- Once the Off loop has passed a topic of the list, the named key is
gone from it for good. -/
theorem offFold_removes (k : String) (ms : List String)
    (reg : List (String × List listenerManager)) (cl : List (String × String))
    (t : String) (ht : t ∈ ms) :
    keyUnderB k t (offFold [k] ms (reg, cl)).1 = false := by
  induction ms generalizing reg cl with
  | nil => simp at ht
  | cons t2 ms2 ih =>
    by_cases hteq : t2 = t
    · subst hteq
      by_contra hcon
      rw [Bool.not_eq_false] at hcon
      simp only [offFold] at hcon
      have := offFold_keyUnder_mono [k] ms2 _ _ k t2 hcon
      rw [offOne_removes_single] at this
      exact Bool.false_ne_true this
    · rcases List.mem_cons.mp ht with h | ht2
      · exact absurd h.symm hteq
      · simp only [offFold]
        exact ih _ _ ht2

/-- With no listener arguments, the Off loop removes every topic of its
list entirely. -/
theorem offFold_removes_nil (k : String) (ms : List String)
    (reg : List (String × List listenerManager)) (cl : List (String × String))
    (t : String) (ht : t ∈ ms) :
    keyUnderB k t (offFold [] ms (reg, cl)).1 = false := by
  induction ms generalizing reg cl with
  | nil => simp at ht
  | cons t2 ms2 ih =>
    by_cases hteq : t2 = t
    · subst hteq
      by_contra hcon
      rw [Bool.not_eq_false] at hcon
      simp only [offFold] at hcon
      have := offFold_keyUnder_mono [] ms2 _ _ k t2 hcon
      rw [offOne_removes_nil] at this
      exact Bool.false_ne_true this
    · rcases List.mem_cons.mp ht with h | ht2
      · exact absurd h.symm hteq
      · simp only [offFold]
        exact ih _ _ ht2

/-- The Off loop with one named listener closes that listener's channel on
each topic of the list it is registered under. -/
theorem offFold_closes (k : String) (ms : List String)
    (reg : List (String × List listenerManager)) (cl : List (String × String))
    (t : String) (ht : t ∈ ms) (hk : keyUnderB k t reg = true) :
    (t, k) ∈ (offFold [k] ms (reg, cl)).2 := by
  induction ms generalizing reg cl with
  | nil => simp at ht
  | cons t2 ms2 ih =>
    by_cases hteq : t2 = t
    · subst hteq
      simp only [offFold]
      exact offFold_cl_mono _ _ _ _ _
        (List.mem_append.mpr (Or.inr (offOne_closed_single t2 k reg hk)))
    · rcases List.mem_cons.mp ht with h | ht2
      · exact absurd h.symm hteq
      · have hk2 : keyUnderB k t (offOne t2 [k] reg).1 = true := by
          rw [offOne_keyUnder_ne t2 [k] reg k t (fun hq => hteq hq.symm)]
          exact hk
        simp only [offFold]
        exact ih _ _ ht2 hk2

/-- The Off loop with no listener arguments closes every channel of each
registered topic of its list. -/
theorem offFold_closes_nil (k : String) (ms : List String)
    (reg : List (String × List listenerManager)) (cl : List (String × String))
    (t : String) (ht : t ∈ ms) (hk : keyUnderB k t reg = true) :
    (t, k) ∈ (offFold [] ms (reg, cl)).2 := by
  induction ms generalizing reg cl with
  | nil => simp at ht
  | cons t2 ms2 ih =>
    by_cases hteq : t2 = t
    · subst hteq
      simp only [offFold]
      exact offFold_cl_mono _ _ _ _ _
        (List.mem_append.mpr (Or.inr (offOne_closed_nil t2 k reg hk)))
    · rcases List.mem_cons.mp ht with h | ht2
      · exact absurd h.symm hteq
      · have hk2 : keyUnderB k t (offOne t2 [] reg).1 = true := by
          rw [offOne_keyUnder_ne t2 [] reg k t (fun hq => hteq hq.symm)]
          exact hk
        simp only [offFold]
        exact ih _ _ ht2 hk2

/-- Closed channels of the Off loop stem from a topic of the list and a
key registered under it at loop entry. -/
theorem offFold_closed_src (ls ms : List String)
    (reg : List (String × List listenerManager)) (cl : List (String × String))
    (x : String × String) (hx : x ∈ (offFold ls ms (reg, cl)).2) :
    x ∈ cl ∨ (x.1 ∈ ms ∧ keyUnderB x.2 x.1 reg = true) := by
  induction ms generalizing reg cl with
  | nil => exact Or.inl hx
  | cons t2 ms2 ih =>
    simp only [offFold] at hx
    rcases ih _ _ hx with hcl | ⟨h1, h2⟩
    · rcases List.mem_append.mp hcl with h | h
      · exact Or.inl h
      · obtain ⟨ha, hb⟩ := offOne_closed_src t2 ls reg x h
        refine Or.inr ⟨by rw [ha]; simp, ?_⟩
        rw [ha]
        exact hb
    · exact Or.inr ⟨List.mem_cons_of_mem _ h1, offOne_keyUnder_mono _ _ _ _ _ h2⟩

/-- The Off loop with no listener arguments: the surviving topics are
those not in its list. -/
theorem offFold_topics_nil (ms : List String)
    (reg : List (String × List listenerManager)) (cl : List (String × String)) :
    regTopics (offFold [] ms (reg, cl)).1 =
      (regTopics reg).filter (fun K => !(ms.contains K)) := by
  induction ms generalizing reg cl with
  | nil => simp [offFold]
  | cons t2 ms2 ih =>
    simp only [offFold]
    rw [ih, offOne_topics_nil, List.filter_filter]
    apply List.filter_congr
    intro x hx
    by_cases hxe : x = t2 <;> simp [hxe]

/-- Dropping a pairing that exists nowhere is a no-op for the whole loop. -/
theorem offFold_noop (k : String) (ms : List String)
    (reg : List (String × List listenerManager))
    (hk : ∀ t, keyUnderB k t reg = false) (hne : ∀ e ∈ reg, e.2 ≠ [])
    (cl : List (String × String)) :
    offFold [k] ms (reg, cl) = (reg, cl) := by
  induction ms generalizing cl with
  | nil => rfl
  | cons t2 ms2 ih =>
    simp only [offFold, offOne_noop t2 k reg (hk t2) hne, List.append_nil]
    exact ih _

/- ===================== Claim theorems ===================== -/

/-- C1 counterexample: with the star pattern as the single registered key
and the malformed query left bracket, the reverse match succeeds, yet the
resolution returns nothing: the forward match error aborts the whole scan
instead of counting as no match for that one pair. -/
theorem matched_malformed_query_cx :
    (goMatchS "*" "[").1 = true ∧ (matchedGo "[" ["*"]).1 = [] := by decide

/-- C1 (amended): provided path.Match(Q, K) reports no error for any
registered key K (which holds for every well formed query Q; a malformed Q
instead aborts the scan at the first erroring key, omitting that key and
all later ones even when they match in the reverse direction), the
resolution returns exactly the registered keys K with match(Q, K) or
match(K, Q), a malformed registered key is treated as no match for its own
pair only, and no failure is surfaced. -/
theorem matched_bidirectional_resolution (q : String) (keys : List String)
    (herr : ∀ k ∈ keys, (goMatchS q k).2 = false) :
    matchedGo q keys =
      (keys.filter (fun k => (goMatchS q k).1 || (goMatchS k q).1), false) :=
  matchedGo_eq_filter q keys herr

/-- Witness for C1: a concrete registry where one key matches forward, one
matches only in reverse, one not at all, and one is malformed (skipped as
no match without aborting the scan). -/
theorem matched_bidirectional_resolution_witness :
    matchedGo "c*" ["cat", "dog", "*", "["] = (["cat", "*"], false) :=
  (matched_bidirectional_resolution "c*" ["cat", "dog", "*", "["] (by decide)).trans
    (by decide)

/-- C2 counterexample: a listener that faults on the first queued event
makes the worker deliver nothing further and die: observe has no recover,
so the claim that the worker recovers and keeps draining fails. -/
theorem observe_fault_cx :
    observe (fun e => decide (e.subject ≠ 0))
      [{ topic := "t", flag := 0, subject := 0 },
       { topic := "t", flag := 0, subject := 1 }] = ([], false) := by decide

/-- C2 (amended): a faulting listener invocation terminates the worker
drain loop: events handled before the fault stay handled, but the faulting
event and every later event of the mailbox are never delivered and the
worker does not survive (the only recover in the package guards send, not
the worker loop). -/
theorem observe_stops_at_fault (handle : BasicEvent → Bool)
    (pre : List BasicEvent) (e : BasicEvent) (post : List BasicEvent)
    (hpre : ∀ x ∈ pre, handle x = true) (he : handle e = false) :
    observe handle (pre ++ e :: post) = (pre, false) := by
  induction pre with
  | nil => simp [observe, he]
  | cons x xs ih =>
    have hx : handle x = true := hpre x (by simp)
    simp [observe, hx, ih (fun y hy => hpre y (by simp [hy]))]

/-- Witness for C2: one event handled, then the fault, then an undelivered
event. -/
theorem observe_stops_at_fault_witness :
    observe (fun e => decide (e.subject ≠ 0))
      [{ topic := "t", flag := 0, subject := 5 },
       { topic := "t", flag := 0, subject := 0 },
       { topic := "t", flag := 0, subject := 2 }] =
      ([{ topic := "t", flag := 0, subject := 5 }], false) :=
  observe_stops_at_fault (fun e => decide (e.subject ≠ 0))
    [{ topic := "t", flag := 0, subject := 5 }]
    { topic := "t", flag := 0, subject := 0 }
    [{ topic := "t", flag := 0, subject := 2 }] (by decide) (by decide)

/-- C5: the Once operation does not prepend the Once middleware: it stores
append(middlewares, Once), so a caller middleware runs first and never sees
the Once bit (the probe leaves the flag at FlagOnce), while the claimed and
doc-commented prepend order would let it see the bit (flag FlagOnce with
the probe bit 8 added). The stored chain and the delivered flags differ
observably from the claimed ones. -/
theorem once_appends_not_prepends :
    subMids ((New 0).Once "t" "k" [probe]) "t" "k" = [probe, emitter.Once]
    ∧ (applyMiddlewares evW (subMids ((New 0).Once "t" "k" [probe]) "t" "k")).flag
        = FlagOnce
    ∧ (applyMiddlewares evW (emitter.Once :: [probe])).flag = FlagOnce ||| 8
    ∧ applyMiddlewares evW (subMids ((New 0).Once "t" "k" [probe]) "t" "k") ≠
        applyMiddlewares evW (emitter.Once :: [probe]) :=
  ⟨rfl, by decide, by decide, by decide⟩

/-- C7: a delivery attempt with the Skip bit set against a full open
mailbox resolves immediately (the nonblocking select default), is judged
not sent with no removal and no error, and leaves the mailbox untouched, so
the listener never receives the event and the emit completion signal is not
held up by this attempt. -/
theorem skip_full_drops (lm : listenerManager) (e : BasicEvent)
    (hopen : lm.chClosed = false) (hfull : lm.chCap ≤ lm.ch.length)
    (hskip : e.flag ||| FlagSkip = e.flag) :
    pushEvent false false false e.flag = some (false, false)
    ∧ deliverLM lm e = (lm, false, false) := by
  have hroom : decide (lm.ch.length < lm.chCap) = false := by
    simp [Nat.not_lt.mpr hfull]
  constructor
  · simp [pushEvent, send, hskip, pushEventOutcome]
  · simp [deliverLM, pushEvent, send, pushEventOutcome, hroom, hopen, hskip]

/-- Witness for C7: the capacity zero manager with a Skip flagged event. -/
theorem skip_full_drops_witness :
    deliverLM lmFullW { topic := "a", flag := 4, subject := 0 } =
      (lmFullW, false, false) :=
  (skip_full_drops lmFullW { topic := "a", flag := 4, subject := 0 }
    (by decide) (by decide) (by decide)).2

/-- C8: a delivery attempt racing a concurrent mailbox closure degrades to
a not sent outcome and never propagates a fault: an attempt that starts
after the close resolves to (sent false, canceled false) through the
recover in send for every flag combination, a blocking sender on a full
open mailbox suspends, and its resumption by the closure is likewise
recovered to not sent with no removal. -/
theorem closed_mailbox_not_sent (doneFired room wait : Bool) (flag : Flag) :
    send doneFired room true wait = some (false, false)
    ∧ pushEvent doneFired room true flag = some (false, false)
    ∧ send false false false true = none
    ∧ pushEventOutcome flag (sendResume Wake.chClosed) = (false, false) :=
  ⟨rfl, rfl, rfl, rfl⟩

/-- C4: during an emit the delivered events refine the fixed scoping
specification: per matched topic, the pattern scoped middlewares are
applied once to the shared event before the fan-out of that topic begins,
so their effect is in the one shared event every subscription of the topic
starts from; each subscription then receives a private clone of that
shared event transformed by its own listener scoped middleware chain
alone. The specification of one topic's fan-out moreover decomposes per
subscription, so one subscription's listener scoped middlewares never
influence the event any other subscription receives. -/
theorem middleware_scoping (st : Emitter) (ev : BasicEvent) :
    dsEvents (st.Emit ev).2.1 =
      emitEventsSpec (regSkel st.listMans) st.middlewares ev
        ((matchedGo ev.topic (topicsOf st)).1)
    ∧ ∀ (t : String) (sh : BasicEvent) (pre post : List (String × List Mw))
        (p : String × List Mw),
        subEventsSpec t sh (pre ++ p :: post) =
          subEventsSpec t sh pre ++ subEventsSpec t sh [p] ++
            subEventsSpec t sh post := by
  constructor
  · have h := emitFan_events st ev ((matchedGo ev.topic (topicsOf st)).1)
    simpa [Emitter.Emit] using h
  · intro t sh pre post p
    have hsplit : p :: post = [p] ++ post := rfl
    rw [hsplit, ← List.append_assoc, subEventsSpec_append, subEventsSpec_append]

/-- C6: a subscription whose event, after pattern scoped and listener
scoped middlewares, carries the Void bit is skipped entirely: within the
fan-out of its topic it is left untouched (its mailbox is not mutated), no
delivery attempt is produced for it, and the other subscriptions are
unaffected; moreover across any whole emit no delivery record ever carries
a Void flagged event, so the listener of a Void flagged subscription is
invoked zero times for that event. -/
theorem void_skips_delivery (t : String) (sh : BasicEvent)
    (pre post : List listenerManager) (lm : listenerManager)
    (hvoid : (applyMiddlewares sh.Clone lm.middlewares).flag ||| FlagVoid =
      (applyMiddlewares sh.Clone lm.middlewares).flag) :
    fanoutSubs t sh (pre ++ lm :: post) =
      ((fanoutSubs t sh pre).1 ++ lm :: (fanoutSubs t sh post).1,
       (fanoutSubs t sh pre).2 ++ (fanoutSubs t sh post).2)
    ∧ ∀ (st : Emitter) (ev : BasicEvent) (d : Delivery), d ∈ (st.Emit ev).2.1 →
        d.event.flag ||| FlagVoid ≠ d.event.flag := by
  constructor
  · have hsplit : pre ++ lm :: post = pre ++ [lm] ++ post := by simp
    rw [hsplit, fanoutSubs_append, fanoutSubs_append]
    simp [fanoutSubs, hvoid]
  · intro st ev d hd
    have hm : d ∈ (emitFan st ev ((matchedGo ev.topic (topicsOf st)).1)).2 := by
      simpa [Emitter.Emit] using hd
    exact (emitFan_mem st ev _ d hm).2.2.2.1

/-- Witness for C6: a subscription whose only middleware is Void is left
untouched and receives nothing. -/
theorem void_skips_delivery_witness :
    fanoutSubs "t" evW [lmVoidW] = ([lmVoidW], []) := by
  have h := (void_skips_delivery "t" evW [] [] lmVoidW (by decide)).1
  simpa [fanoutSubs] using h

/-- Off written out through its loop. -/
theorem Off_unfold (st : Emitter) (T : String) (ls : List String) :
    st.Off T ls =
      ({ st with listMans :=
          (offFold ls ((matchedGo T (topicsOf st)).1) (st.listMans, [])).1 },
       (offFold ls ((matchedGo T (topicsOf st)).1) (st.listMans, [])).2) := rfl

/-- C9 counterexample: with the star pattern as the only registered topic,
off applied to the malformed pattern left bracket removes nothing, although
the star topic matches the query in the reverse direction and the claim
demands its removal. -/
theorem off_malformed_pattern_cx :
    (goMatchS "*" "[").1 = true ∧ (stStarW.Off "[" []).1 = stStarW ∧
      topicsOf ((stStarW.Off "[" []).1) = ["*"] :=
  ⟨by decide, rfl, by decide⟩

/-- C9 (amended): provided path.Match(T, K) reports no error for any
registered key K (which holds for every well formed T; a malformed T
instead aborts the matched scan at the first erroring key, as the
counterexample shows) and every registry entry is nonempty (an invariant of
reachable states, restated because the registry is modeled as a list),
off(T) with no listeners removes every subscription of every registered
topic matching T bidirectionally and deletes those entries: the surviving
topics are exactly the non matching ones, a channel (t, k) is closed
exactly when t matched and k was registered under it, repeating the call is
a no-op, no registry entry with zero subscriptions persists after any off
call, and removing a nonexistent topic/listener pairing is a no-op. -/
theorem off_removes_matched (st : Emitter) (T : String)
    (herr : ∀ K ∈ topicsOf st, (goMatchS T K).2 = false)
    (hne : ∀ e ∈ st.listMans, e.2 ≠ []) :
    topicsOf (st.Off T []).1 =
      (topicsOf st).filter (fun K => !((goMatchS T K).1 || (goMatchS K T).1))
    ∧ (∀ t k : String, (t, k) ∈ (st.Off T []).2 ↔
        ((goMatchS T t).1 || (goMatchS t T).1) = true ∧
          keyUnderB k t st.listMans = true)
    ∧ (st.Off T []).1.Off T [] = ((st.Off T []).1, [])
    ∧ (∀ ls : List String, ∀ e ∈ ((st.Off T ls).1).listMans, e.2 ≠ [])
    ∧ (∀ k : String, (∀ t, keyUnderB k t st.listMans = false) →
        st.Off T [k] = (st, [])) := by
  have hms : (matchedGo T (topicsOf st)).1 =
      (topicsOf st).filter (fun K => (goMatchS T K).1 || (goMatchS K T).1) := by
    rw [matchedGo_eq_filter T _ herr]
  have htop : topicsOf (st.Off T []).1 =
      (topicsOf st).filter (fun K => !((goMatchS T K).1 || (goMatchS K T).1)) := by
    rw [Off_unfold]
    show regTopics (offFold [] ((matchedGo T (topicsOf st)).1) (st.listMans, [])).1 = _
    rw [offFold_topics_nil, hms]
    apply List.filter_congr
    intro x hx
    by_cases hpx : ((goMatchS T x).1 || (goMatchS x T).1) = true
    · have hmem :
          x ∈ (topicsOf st).filter (fun K => (goMatchS T K).1 || (goMatchS K T).1) :=
        List.mem_filter.mpr ⟨hx, hpx⟩
      simp [hpx, hmem]
    · have hmem :
          x ∉ (topicsOf st).filter (fun K => (goMatchS T K).1 || (goMatchS K T).1) :=
        fun hc => hpx (List.mem_filter.mp hc).2
      simp only [Bool.not_eq_true] at hpx
      simp [hpx, hmem]
  have hclosed : ∀ t k : String, (t, k) ∈ (st.Off T []).2 ↔
      ((goMatchS T t).1 || (goMatchS t T).1) = true ∧
        keyUnderB k t st.listMans = true := by
    intro t k
    rw [Off_unfold]
    constructor
    · intro hx
      rcases offFold_closed_src [] _ _ _ (t, k) hx with hcl | ⟨h1, h2⟩
      · simp at hcl
      · rw [hms] at h1
        exact ⟨(List.mem_filter.mp h1).2, h2⟩
    · rintro ⟨hm, hk⟩
      have ht : t ∈ topicsOf st := by
        rw [keyUnderB_iff] at hk
        obtain ⟨e, he, het, _⟩ := hk
        exact (regTopics_mem t st.listMans).mpr ⟨e, he, het⟩
      refine offFold_closes_nil k _ _ _ t ?_ hk
      rw [hms]
      exact List.mem_filter.mpr ⟨ht, hm⟩
  have hidem : (st.Off T []).1.Off T [] = ((st.Off T []).1, []) := by
    have hms2 : (matchedGo T (topicsOf (st.Off T []).1)).1 = [] := by
      have herr2 : ∀ K ∈ topicsOf (st.Off T []).1, (goMatchS T K).2 = false := by
        intro K hK
        rw [htop] at hK
        exact herr K (List.mem_filter.mp hK).1
      rw [matchedGo_eq_filter T _ herr2]
      apply List.filter_eq_nil_iff.mpr
      intro K hK
      rw [htop] at hK
      have hKm := (List.mem_filter.mp hK).2
      simp only [Bool.not_eq_true'] at hKm
      simp [hKm]
    rw [Off_unfold ((st.Off T []).1) T [], hms2]
    rfl
  have hnonempty : ∀ ls : List String, ∀ e ∈ ((st.Off T ls).1).listMans, e.2 ≠ [] := by
    intro ls
    rw [Off_unfold]
    exact offFold_nonempty ls _ _ _ hne
  have hnoop : ∀ k : String, (∀ t, keyUnderB k t st.listMans = false) →
      st.Off T [k] = (st, []) := by
    intro k hk
    rw [Off_unfold, offFold_noop k _ st.listMans hk hne []]
  exact ⟨htop, hclosed, hidem, hnonempty, hnoop⟩

/-- Witness for C9: removing by the star pattern empties a two topic
registry. -/
theorem off_removes_matched_witness :
    topicsOf ((stOffW.Off "*" []).1) = [] := by
  have hne : ∀ e ∈ stOffW.listMans, e.2 ≠ [] := by
    have hreg : stOffW.listMans =
        [("a", [newListenerManager 0 "k1" []]), ("b", [newListenerManager 0 "k2" []])] := rfl
    rw [hreg]
    intro e he
    rcases List.mem_cons.mp he with rfl | he2
    · simp
    · rcases List.mem_cons.mp he2 with rfl | he3
      · simp
      · simp at he3
  exact (off_removes_matched stOffW "*" (by decide) hne).1.trans (by decide)

/-- C10: when the concrete type of the delivered event is not the EventOf
instantiation the adapter was built for, the wrapped function is not
invoked at all: the event is silently discarded with no error. -/
theorem listener_func_of_discards (ty : Nat) (e : DynEvent)
    (h : isEventOf ty e = false) :
    ListenerFuncOfHandle ty e = [] := by
  cases e with
  | basic t f s => rfl
  | ofTy ty2 t f s =>
    simp [isEventOf] at h
    simp [ListenerFuncOfHandle, h]

/-- Witness for C10: a BasicEvent delivered to a typed adapter. -/
theorem listener_func_of_discards_witness :
    ListenerFuncOfHandle 0 (DynEvent.basic "t" 0 0) = [] :=
  listener_func_of_discards 0 (DynEvent.basic "t" 0 0) (by decide)

/- ----- helpers for the Once removal claim ----- -/

/-- Off never adds a subscription. -/
theorem Off_keyUnder_mono (st : Emitter) (q : String) (ls : List String)
    (k t : String) (h : keyUnderB k t ((st.Off q ls).1).listMans = true) :
    keyUnderB k t st.listMans = true := by
  rw [Off_unfold] at h
  exact offFold_keyUnder_mono _ _ _ _ _ _ h

/-- Off never adds a topic. -/
theorem Off_topics_sub (st : Emitter) (q : String) (ls : List String)
    (x : String) (hx : x ∈ topicsOf (st.Off q ls).1) : x ∈ topicsOf st := by
  rw [Off_unfold] at hx
  exact offFold_topics_sub _ _ _ _ _ hx

/-- Off of one listener key spares every other key, under every topic. -/
theorem offFold_keep_key (k2 : String) (ms : List String)
    (reg : List (String × List listenerManager)) (cl : List (String × String))
    (k t : String) (hne : k ≠ k2) (hk : keyUnderB k t reg = true) :
    keyUnderB k t (offFold [k2] ms (reg, cl)).1 = true := by
  induction ms generalizing reg cl with
  | nil => exact hk
  | cons t2 ms2 ih =>
    simp only [offFold]
    exact ih _ _ (offOne_keep_key t2 k2 [] reg k t (by simp [hne]) hk)

/-- Off of one listener key spares every other key. -/
theorem Off_keep_key (st : Emitter) (q k2 k t : String) (hne : k ≠ k2)
    (hk : keyUnderB k t st.listMans = true) :
    keyUnderB k t ((st.Off q [k2]).1).listMans = true := by
  rw [Off_unfold]
  exact offFold_keep_key k2 _ _ _ k t hne hk

/-- When the query matches every registered key without error, Off of one
listener key removes it from every topic matching the query in either
direction. -/
theorem Off_removes_matching (st : Emitter) (q k : String)
    (herr : ∀ K ∈ topicsOf st, (goMatchS q K).2 = false) (t : String)
    (hmt : ((goMatchS q t).1 || (goMatchS t q).1) = true) :
    keyUnderB k t ((st.Off q [k]).1).listMans = false := by
  by_contra hcon
  rw [Bool.not_eq_false] at hcon
  have hk0 : keyUnderB k t st.listMans = true := Off_keyUnder_mono st q [k] k t hcon
  have ht : t ∈ topicsOf st := by
    rw [keyUnderB_iff] at hk0
    obtain ⟨e, he, het, _⟩ := hk0
    exact (regTopics_mem t st.listMans).mpr ⟨e, he, het⟩
  have htm : t ∈ (matchedGo q (topicsOf st)).1 := by
    rw [matchedGo_eq_filter q _ herr]
    exact List.mem_filter.mpr ⟨ht, hmt⟩
  have hgone := offFold_removes k ((matchedGo q (topicsOf st)).1) st.listMans [] t htm
  rw [Off_unfold] at hcon
  rw [hgone] at hcon
  exact Bool.false_ne_true hcon

/-- The removal loop only appends to the closed accumulator. -/
theorem removeFold_cl_mono (rs : List Delivery) (s : Emitter)
    (cl : List (String × String)) (x : String × String) (hx : x ∈ cl) :
    x ∈ (removeFold (s, cl) rs).2 := by
  induction rs generalizing s cl with
  | nil => exact hx
  | cons d ds ih =>
    simp only [removeFold]
    exact ih _ _ (List.mem_append.mpr (Or.inl hx))

/-- The removal loop never adds a subscription back. -/
theorem removeFold_preserves_absence (rs : List Delivery) (s : Emitter)
    (cl : List (String × String)) (k t : String)
    (h : keyUnderB k t s.listMans = false) :
    keyUnderB k t ((removeFold (s, cl) rs).1).listMans = false := by
  induction rs generalizing s cl with
  | nil => exact h
  | cons d ds ih =>
    simp only [removeFold]
    apply ih
    by_contra hcon
    rw [Bool.not_eq_false] at hcon
    rw [Off_keyUnder_mono _ _ _ _ _ hcon] at h
    exact Bool.true_eq_false.mp h

/-- The removal loop never adds a topic. -/
theorem removeFold_topics_sub (rs : List Delivery) (s : Emitter)
    (cl : List (String × String)) (x : String)
    (hx : x ∈ topicsOf (removeFold (s, cl) rs).1) : x ∈ topicsOf s := by
  induction rs generalizing s cl with
  | nil => exact hx
  | cons d ds ih =>
    simp only [removeFold] at hx
    exact Off_topics_sub _ _ _ _ (ih _ _ hx)

/-- Through the removal loop of one emit: once some removal carrying the
key runs, the key's channel is closed under its registered topic and the
key is gone from every topic matching the emitted query. -/
theorem removeFold_spec (q : String) (rs : List Delivery) (s0 : Emitter)
    (cl0 : List (String × String)) (k t0 : String)
    (hq : ∀ d ∈ rs, d.event.topic = q)
    (herr : ∀ K ∈ topicsOf s0, (goMatchS q K).2 = false)
    (hmatch : ((goMatchS q t0).1 || (goMatchS t0 q).1) = true)
    (hkey : keyUnderB k t0 s0.listMans = true)
    (hin : ∃ d ∈ rs, d.key = k) :
    (t0, k) ∈ (removeFold (s0, cl0) rs).2 ∧
      ∀ t, ((goMatchS q t).1 || (goMatchS t q).1) = true →
        keyUnderB k t ((removeFold (s0, cl0) rs).1).listMans = false := by
  induction rs generalizing s0 cl0 with
  | nil => simp at hin
  | cons d rs2 ih =>
    have hdq : d.event.topic = q := hq d (by simp)
    by_cases hdk : d.key = k
    · have ht0top : t0 ∈ topicsOf s0 := by
        rw [keyUnderB_iff] at hkey
        obtain ⟨e, he, het, _⟩ := hkey
        exact (regTopics_mem t0 s0.listMans).mpr ⟨e, he, het⟩
      have htm : t0 ∈ (matchedGo q (topicsOf s0)).1 := by
        rw [matchedGo_eq_filter q _ herr]
        exact List.mem_filter.mpr ⟨ht0top, hmatch⟩
      have hc : (t0, k) ∈ (s0.Off q [k]).2 := by
        rw [Off_unfold]
        exact offFold_closes k _ _ _ t0 htm hkey
      constructor
      · simp only [removeFold, hdq, hdk]
        exact removeFold_cl_mono rs2 _ _ (t0, k) (List.mem_append.mpr (Or.inr hc))
      · intro t hmt
        simp only [removeFold, hdq, hdk]
        exact removeFold_preserves_absence rs2 _ _ k t
          (Off_removes_matching s0 q k herr t hmt)
    · have hkey2 : keyUnderB k t0 ((s0.Off q [d.key]).1).listMans = true :=
        Off_keep_key s0 q d.key k t0 (fun hq2 => hdk hq2.symm) hkey
      have herr2 : ∀ K ∈ topicsOf (s0.Off q [d.key]).1, (goMatchS q K).2 = false :=
        fun K hK => herr K (Off_topics_sub s0 q [d.key] K hK)
      have hq2 : ∀ d2 ∈ rs2, d2.event.topic = q :=
        fun d2 h2 => hq d2 (List.mem_cons_of_mem _ h2)
      have hin2 : ∃ d2 ∈ rs2, d2.key = k := by
        obtain ⟨d2, hd2, hk2⟩ := hin
        rcases List.mem_cons.mp hd2 with rfl | h2
        · exact absurd hk2 hdk
        · exact ⟨d2, h2, hk2⟩
      have hstep := ih (s0.Off q [d.key]).1 (cl0 ++ (s0.Off q [d.key]).2)
        hq2 herr2 hkey2 hin2
      simp only [removeFold, hdq]
      exact hstep

/-- The inner Range of Listeners over the registry: a collected key beyond
the accumulator is registered under the topic. -/
theorem inner_fold_mem (reg : List (String × List listenerManager)) (t : String)
    (acc : List String) (x : String)
    (hx : x ∈ reg.foldl (fun acc2 e =>
      if e.1 = t then acc2 ++ e.2.map (fun lm => lm.listener) else acc2) acc) :
    x ∈ acc ∨ keyUnderB x t reg = true := by
  induction reg generalizing acc with
  | nil => exact Or.inl hx
  | cons en rest ih =>
    by_cases he : en.1 = t
    · simp only [List.foldl_cons, he, if_pos] at hx
      rcases ih _ hx with h | h
      · rcases List.mem_append.mp h with h2 | h2
        · exact Or.inl h2
        · simp only [List.mem_map] at h2
          obtain ⟨lm, hlm, hxe⟩ := h2
          refine Or.inr ?_
          rw [← he]
          exact keyUnderB_head x en rest lm hlm hxe
      · exact Or.inr (keyUnderB_cons_of _ _ en rest h)
    · simp only [List.foldl_cons, he, if_neg, not_false_eq_true] at hx
      rcases ih _ hx with h | h
      · exact Or.inl h
      · exact Or.inr (keyUnderB_cons_of _ _ en rest h)

/-- The outer loop of Listeners: a collected key is registered under one of
the matched topics. -/
theorem listeners_fold_mem (reg : List (String × List listenerManager))
    (ms : List String) (acc : List String) (x : String)
    (hx : x ∈ ms.foldl (fun acc t => reg.foldl (fun acc2 e =>
      if e.1 = t then acc2 ++ e.2.map (fun lm => lm.listener) else acc2) acc) acc) :
    x ∈ acc ∨ ∃ t ∈ ms, keyUnderB x t reg = true := by
  induction ms generalizing acc with
  | nil => exact Or.inl hx
  | cons t2 ms2 ih =>
    simp only [List.foldl_cons] at hx
    rcases ih _ hx with hacc | ⟨t, ht, hkt⟩
    · rcases inner_fold_mem reg t2 acc x hacc with h | h
      · exact Or.inl h
      · exact Or.inr ⟨t2, by simp, h⟩
    · exact Or.inr ⟨t, List.mem_cons_of_mem _ ht, hkt⟩

/-- A listed listener of Listeners is registered under a matched topic. -/
theorem Listeners_src (st : Emitter) (q x : String) (hx : x ∈ st.Listeners q) :
    ∃ t ∈ (matchedGo q (topicsOf st)).1, keyUnderB x t st.listMans = true := by
  rcases listeners_fold_mem st.listMans ((matchedGo q (topicsOf st)).1) [] x hx with
    h | h
  · simp at h
  · exact h

/-- A key of the matched list is scanned before any abort and matches in
one direction. -/
theorem matchedGo_mem_reaches (q t : String) (keys : List String)
    (h : t ∈ (matchedGo q keys).1) :
    reaches q t keys = true ∧ ((goMatchS q t).1 || (goMatchS t q).1) = true := by
  induction keys with
  | nil => simp [matchedGo] at h
  | cons k rest ih =>
    simp only [matchedGo] at h
    by_cases he : (goMatchS q k).2 = true
    · simp [he] at h
    · rw [Bool.not_eq_true] at he
      by_cases h1 : (goMatchS q k).1 = true
      · simp only [he, Bool.false_eq_true, if_false, h1, if_true, List.mem_cons] at h
        rcases h with rfl | hm
        · exact ⟨by simp [reaches, he], by simp [h1]⟩
        · obtain ⟨hr, hm2⟩ := ih hm
          exact ⟨by simp [reaches, he, hr], hm2⟩
      · by_cases h2 : (goMatchS k q).1 = true
        · simp only [he, Bool.false_eq_true, if_false, h1, h2, if_true,
            List.mem_cons] at h
          rcases h with rfl | hm
          · exact ⟨by simp [reaches, he], by simp [h2]⟩
          · obtain ⟨hr, hm2⟩ := ih hm
            exact ⟨by simp [reaches, he, hr], hm2⟩
        · simp only [he, Bool.false_eq_true, if_false, h1, h2] at h
          obtain ⟨hr, hm2⟩ := ih h
          exact ⟨by simp [reaches, he, hr], hm2⟩

/-- A scanned key that matches in one direction is in the matched list. -/
theorem reaches_matchedGo (q t : String) (keys : List String)
    (hr : reaches q t keys = true)
    (hm : ((goMatchS q t).1 || (goMatchS t q).1) = true) :
    t ∈ (matchedGo q keys).1 := by
  induction keys with
  | nil => simp [reaches] at hr
  | cons k rest ih =>
    simp only [reaches, Bool.and_eq_true, Bool.or_eq_true, beq_iff_eq,
      Bool.not_eq_eq_eq_not, Bool.not_true] at hr
    obtain ⟨hok, hrest⟩ := hr
    rcases hrest with rfl | hr2
    · by_cases hfw : (goMatchS q k).1 = true
      · simp [matchedGo, hok, hfw]
      · have h1 : (goMatchS k q).1 = true := by
          rcases (by simpa using hm :
            (goMatchS q k).1 = true ∨ (goMatchS k q).1 = true) with h | h
          · exact absurd h hfw
          · exact h
        simp [matchedGo, hok, hfw, h1]
    · have hmem := ih hr2
      by_cases hfw : (goMatchS q k).1 = true
      · simp only [matchedGo, hok, Bool.false_eq_true, if_false, hfw, if_true,
          List.mem_cons]
        exact Or.inr hmem
      · by_cases hbw : (goMatchS k q).1 = true
        · simp only [matchedGo, hok, Bool.false_eq_true, if_false, hfw, hbw,
            if_true, List.mem_cons]
          exact Or.inr hmem
        · simp only [matchedGo, hok, Bool.false_eq_true, if_false, hfw, hbw]
          exact hmem

/-- A scanned key itself triggers no forward match error. -/
theorem reaches_ok (q t : String) (keys : List String)
    (h : reaches q t keys = true) : (goMatchS q t).2 = false := by
  induction keys with
  | nil => simp [reaches] at h
  | cons k rest ih =>
    simp only [reaches, Bool.and_eq_true, Bool.or_eq_true, beq_iff_eq,
      Bool.not_eq_eq_eq_not, Bool.not_true] at h
    obtain ⟨hok, hrest⟩ := h
    rcases hrest with rfl | hr
    · exact hok
    · exact ih hr

/-- Deleting keys never unblocks the scan of a kept key. -/
theorem reaches_filter (q t : String) (p : String → Bool) (keys : List String)
    (hr : reaches q t keys = true) (hpt : p t = true) :
    reaches q t (keys.filter p) = true := by
  induction keys with
  | nil => simp [reaches] at hr
  | cons k rest ih =>
    simp only [reaches, Bool.and_eq_true, Bool.or_eq_true, beq_iff_eq,
      Bool.not_eq_eq_eq_not, Bool.not_true] at hr
    obtain ⟨hok, hrest⟩ := hr
    by_cases hpk : p k = true
    · rw [List.filter_cons_of_pos hpk]
      simp only [reaches, Bool.and_eq_true, Bool.or_eq_true, beq_iff_eq,
        Bool.not_eq_eq_eq_not, Bool.not_true]
      refine ⟨hok, ?_⟩
      rcases hrest with rfl | hr2
      · exact Or.inl rfl
      · exact Or.inr (ih hr2)
    · rw [List.filter_cons_of_neg (by simpa using hpk)]
      rcases hrest with rfl | hr2
      · exact absurd hpt hpk
      · exact ih hr2

/-- Restoring deleted keys that trigger no error preserves the scan. -/
theorem reaches_unfilter (q t : String) (p : String → Bool) (keys : List String)
    (hr : reaches q t (keys.filter p) = true)
    (hok : ∀ x ∈ keys, p x = false → (goMatchS q x).2 = false) :
    reaches q t keys = true := by
  induction keys with
  | nil => simp [reaches] at hr
  | cons k rest ih =>
    by_cases hpk : p k = true
    · rw [List.filter_cons_of_pos hpk] at hr
      simp only [reaches, Bool.and_eq_true, Bool.or_eq_true, beq_iff_eq,
        Bool.not_eq_eq_eq_not, Bool.not_true] at hr ⊢
      obtain ⟨h1, h2⟩ := hr
      refine ⟨h1, ?_⟩
      rcases h2 with rfl | h3
      · exact Or.inl rfl
      · exact Or.inr (ih h3 (fun x hx hpx => hok x (List.mem_cons_of_mem _ hx) hpx))
    · rw [List.filter_cons_of_neg (by simpa using hpk)] at hr
      have hokk : (goMatchS q k).2 = false :=
        hok k (by simp) (by simpa using hpk)
      simp only [reaches, Bool.and_eq_true, Bool.or_eq_true, beq_iff_eq,
        Bool.not_eq_eq_eq_not, Bool.not_true]
      exact ⟨hokk,
        Or.inr (ih hr (fun x hx hpx => hok x (List.mem_cons_of_mem _ hx) hpx))⟩

/-- A nodup list filtered by membership in one of its sublists gives back
that sublist. -/
theorem sublist_filter_contains (l2 l : List String) (hs : l2.Sublist l)
    (hn : l.Nodup) : l.filter (fun x => l2.contains x) = l2 := by
  induction hs with
  | slnil => rfl
  | @cons l3 l4 a hs2 ih =>
    have hna : a ∉ l4 := (List.nodup_cons.mp hn).1
    have hnl : l4.Nodup := (List.nodup_cons.mp hn).2
    have hal3 : a ∉ l3 := fun hmem => hna (hs2.subset hmem)
    have hca : l3.contains a = false := by simpa using hal3
    rw [List.filter_cons_of_neg (by simpa using hal3)]
    exact ih hnl
  | @cons₂ l3 l4 a hs2 ih =>
    have hna : a ∉ l4 := (List.nodup_cons.mp hn).1
    have hnl : l4.Nodup := (List.nodup_cons.mp hn).2
    rw [List.filter_cons_of_pos (by simp)]
    have hcong : l4.filter (fun x => (a :: l3).contains x) =
        l4.filter (fun x => l3.contains x) := by
      apply List.filter_congr
      intro x hx
      have hxa : ¬ x = a := fun hq => hna (hq ▸ hx)
      simp [List.contains_cons, hxa]
    rw [hcong, ih hnl]

/-- One Off pass only deletes whole entries or shrinks them: the topic
list of the result is a sublist. -/
theorem offOne_topics_sublist (t0 : String) (ls : List String)
    (reg : List (String × List listenerManager)) :
    (regTopics (offOne t0 ls reg).1).Sublist (regTopics reg) := by
  induction reg with
  | nil => simp [offOne, regTopics]
  | cons en rest ih =>
    by_cases he : en.1 = t0
    · by_cases hl : ls.isEmpty = true
      · simp only [offOne, he, if_pos, hl, if_true, regTopics, List.map_cons]
        exact ih.trans (List.sublist_cons_self _ _)
      · by_cases hrem :
            (en.2.filter (fun lm => !ls.contains lm.listener)).isEmpty = true
        · simp only [offOne, he, if_pos, hl, Bool.false_eq_true, if_false, hrem,
            if_true, regTopics, List.map_cons]
          exact ih.trans (List.sublist_cons_self _ _)
        · simp only [offOne, he, if_pos, hl, Bool.false_eq_true, if_false, hrem,
            regTopics, List.map_cons]
          exact ih.cons₂ _
    · simp only [offOne, he, if_neg, not_false_eq_true, regTopics, List.map_cons]
      exact ih.cons₂ _

/-- The Off loop only shrinks the topic list. -/
theorem offFold_topics_sublist (ls ms : List String)
    (reg : List (String × List listenerManager)) (cl : List (String × String)) :
    (regTopics (offFold ls ms (reg, cl)).1).Sublist (regTopics reg) := by
  induction ms generalizing reg cl with
  | nil => exact List.Sublist.refl _
  | cons t2 ms2 ih =>
    simp only [offFold]
    exact (ih _ _).trans (offOne_topics_sublist t2 ls reg)

/-- Off only shrinks the topic list. -/
theorem Off_topics_sublist (st : Emitter) (q : String) (ls : List String) :
    (topicsOf (st.Off q ls).1).Sublist (topicsOf st) := by
  rw [Off_unfold]
  exact offFold_topics_sublist ls _ st.listMans []

/-- Off keeps the topic list nodup. -/
theorem Off_nodup (st : Emitter) (q : String) (ls : List String)
    (hn : (topicsOf st).Nodup) : (topicsOf (st.Off q ls).1).Nodup :=
  (Off_topics_sublist st q ls).nodup hn

/-- A topic deleted by one Off pass is the dropped topic. -/
theorem offOne_removed_name (t0 : String) (ls : List String)
    (reg : List (String × List listenerManager)) (x : String)
    (hx : x ∈ regTopics reg) (hnx : x ∉ regTopics (offOne t0 ls reg).1) :
    x = t0 := by
  by_contra hne
  rw [regTopics_mem] at hx
  obtain ⟨e, he, hex⟩ := hx
  exact hnx ((regTopics_mem x _).mpr
    ⟨e, offOne_keep_ne t0 ls reg e he (by rw [hex]; exact hne), hex⟩)

/-- A topic deleted by the Off loop is one of the matched topics of the
loop. -/
theorem offFold_removed_name (ls ms : List String)
    (reg : List (String × List listenerManager)) (cl : List (String × String))
    (x : String) (hx : x ∈ regTopics reg)
    (hnx : x ∉ regTopics (offFold ls ms (reg, cl)).1) : x ∈ ms := by
  induction ms generalizing reg cl with
  | nil => exact absurd hx hnx
  | cons t2 ms2 ih =>
    simp only [offFold] at hnx
    by_cases hx2 : x ∈ regTopics (offOne t2 ls reg).1
    · exact List.mem_cons_of_mem _ (ih _ _ hx2 hnx)
    · rw [offOne_removed_name t2 ls reg x hx hx2]
      simp

/-- A topic deleted by Off was matched by the query. -/
theorem Off_removed_in_matched (st : Emitter) (q : String) (ls : List String)
    (x : String) (hx : x ∈ topicsOf st) (hnx : x ∉ topicsOf (st.Off q ls).1) :
    x ∈ (matchedGo q (topicsOf st)).1 := by
  rw [Off_unfold] at hnx
  exact offFold_removed_name ls _ st.listMans [] x hx hnx

/-- A topic matched before an Off and surviving it is still matched
afterwards (for any query, since deleting registered keys never unblocks
the scan of a survivor). -/
theorem Off_matched_forward (st : Emitter) (q q2 : String) (ls : List String)
    (t : String) (hn : (topicsOf st).Nodup)
    (hm : t ∈ (matchedGo q (topicsOf st)).1)
    (ht : t ∈ topicsOf (st.Off q2 ls).1) :
    t ∈ (matchedGo q (topicsOf (st.Off q2 ls).1)).1 := by
  obtain ⟨hr, hmc⟩ := matchedGo_mem_reaches q t _ hm
  have hfil : (topicsOf st).filter (fun x => (topicsOf (st.Off q2 ls).1).contains x) =
      topicsOf (st.Off q2 ls).1 :=
    sublist_filter_contains _ _ (Off_topics_sublist st q2 ls) hn
  have hpt : (topicsOf (st.Off q2 ls).1).contains t = true := by simpa using ht
  have hr2 := reaches_filter q t _ _ hr hpt
  rw [hfil] at hr2
  exact reaches_matchedGo q t _ hr2 hmc

/-- A topic matched after an Off with the same query was matched before it:
the keys the Off deleted were themselves matched, hence error free, so
deleting them cannot have unblocked the scan. -/
theorem Off_matched_back (st : Emitter) (q : String) (ls : List String)
    (t : String) (hn : (topicsOf st).Nodup)
    (hm : t ∈ (matchedGo q (topicsOf (st.Off q ls).1)).1) :
    t ∈ (matchedGo q (topicsOf st)).1 := by
  obtain ⟨hr, hmc⟩ := matchedGo_mem_reaches q t _ hm
  have hfil : (topicsOf st).filter (fun x => (topicsOf (st.Off q ls).1).contains x) =
      topicsOf (st.Off q ls).1 :=
    sublist_filter_contains _ _ (Off_topics_sublist st q ls) hn
  rw [← hfil] at hr
  refine reaches_matchedGo q t _ (reaches_unfilter q t _ _ hr ?_) hmc
  intro x hx hpx
  have hnx : x ∉ topicsOf (st.Off q ls).1 := by
    intro hmem
    rw [(by simpa using hmem : (topicsOf (st.Off q ls).1).contains x = true)] at hpx
    exact Bool.true_eq_false.mp hpx
  exact reaches_ok q x _
    (matchedGo_mem_reaches q x _ (Off_removed_in_matched st q ls x hx hnx)).1

/-- The removal loop keeps the topic list nodup. -/
theorem removeFold_nodup (rs : List Delivery) (s : Emitter)
    (cl : List (String × String)) (hn : (topicsOf s).Nodup) :
    (topicsOf (removeFold (s, cl) rs).1).Nodup := by
  induction rs generalizing s cl with
  | nil => exact hn
  | cons d ds ih =>
    simp only [removeFold]
    exact ih _ _ (Off_nodup _ _ _ hn)

/-- A topic matched against the emitted query after the removal loop was
matched before it. -/
theorem removeFold_matched_back (q : String) (rs : List Delivery) (s : Emitter)
    (cl : List (String × String)) (hq : ∀ d ∈ rs, d.event.topic = q)
    (hn : (topicsOf s).Nodup) (t : String)
    (hm : t ∈ (matchedGo q (topicsOf (removeFold (s, cl) rs).1)).1) :
    t ∈ (matchedGo q (topicsOf s)).1 := by
  induction rs generalizing s cl with
  | nil => exact hm
  | cons d ds ih =>
    have hdq : d.event.topic = q := hq d (by simp)
    simp only [removeFold, hdq] at hm
    have hstep := ih (s.Off q [d.key]).1 (cl ++ (s.Off q [d.key]).2)
      (fun d2 h2 => hq d2 (List.mem_cons_of_mem _ h2)) (Off_nodup _ _ _ hn) hm
    exact Off_matched_back s q [d.key] t hn hstep

/-- Through the removal loop of one emit: once some removal carrying the
key runs, that key's channel is closed under its registered topic, the
topic's entry no longer holds the key, and the key is gone from every
topic the emitted query still matches afterwards. -/
theorem removeFold_spec2 (q : String) (rs : List Delivery) (s0 : Emitter)
    (cl0 : List (String × String)) (k t0 : String)
    (hq : ∀ d ∈ rs, d.event.topic = q)
    (hn : (topicsOf s0).Nodup)
    (hmem : t0 ∈ (matchedGo q (topicsOf s0)).1)
    (hkey : keyUnderB k t0 s0.listMans = true)
    (hin : ∃ d ∈ rs, d.key = k) :
    (t0, k) ∈ (removeFold (s0, cl0) rs).2 ∧
    keyUnderB k t0 ((removeFold (s0, cl0) rs).1).listMans = false ∧
    ∀ t, t ∈ (matchedGo q (topicsOf (removeFold (s0, cl0) rs).1)).1 →
      keyUnderB k t ((removeFold (s0, cl0) rs).1).listMans = false := by
  induction rs generalizing s0 cl0 with
  | nil => simp at hin
  | cons d rs2 ih =>
    have hdq : d.event.topic = q := hq d (by simp)
    by_cases hdk : d.key = k
    · refine ⟨?_, ?_, ?_⟩
      · have hc : (t0, k) ∈ (s0.Off q [k]).2 := by
          rw [Off_unfold]
          exact offFold_closes k _ _ _ t0 hmem hkey
        simp only [removeFold, hdq, hdk]
        exact removeFold_cl_mono rs2 _ _ (t0, k) (List.mem_append.mpr (Or.inr hc))
      · simp only [removeFold, hdq, hdk]
        apply removeFold_preserves_absence
        show keyUnderB k t0
          (offFold [k] ((matchedGo q (topicsOf s0)).1) (s0.listMans, [])).1 = false
        exact offFold_removes k _ _ _ t0 hmem
      · intro t hmt
        simp only [removeFold, hdq, hdk] at hmt ⊢
        have hn1 : (topicsOf (s0.Off q [k]).1).Nodup := Off_nodup _ _ _ hn
        have hback := removeFold_matched_back q rs2 (s0.Off q [k]).1
          (cl0 ++ (s0.Off q [k]).2)
          (fun d2 h2 => hq d2 (List.mem_cons_of_mem _ h2)) hn1 t hmt
        have hback2 := Off_matched_back s0 q [k] t hn hback
        apply removeFold_preserves_absence
        show keyUnderB k t
          (offFold [k] ((matchedGo q (topicsOf s0)).1) (s0.listMans, [])).1 = false
        exact offFold_removes k _ _ _ t hback2
    · have hkey2 : keyUnderB k t0 ((s0.Off q [d.key]).1).listMans = true :=
        Off_keep_key s0 q d.key k t0 (fun h => hdk h.symm) hkey
      have ht0top2 : t0 ∈ topicsOf (s0.Off q [d.key]).1 := by
        rw [keyUnderB_iff] at hkey2
        obtain ⟨e, he, het, _⟩ := hkey2
        exact (regTopics_mem _ _).mpr ⟨e, he, het⟩
      have hkey3 : keyUnderB k t0 ((s0.Off q [d.key]).1).listMans = true :=
        Off_keep_key s0 q d.key k t0 (fun h => hdk h.symm) hkey
      have hmem2 := Off_matched_forward s0 q q [d.key] t0 hn hmem ht0top2
      have hn2 := Off_nodup s0 q [d.key] hn
      have hq2 : ∀ d2 ∈ rs2, d2.event.topic = q :=
        fun d2 h2 => hq d2 (List.mem_cons_of_mem _ h2)
      have hin2 : ∃ d2 ∈ rs2, d2.key = k := by
        obtain ⟨d2, hd2, hk2⟩ := hin
        rcases List.mem_cons.mp hd2 with rfl | h2
        · exact absurd hk2 hdk
        · exact ⟨d2, h2, hk2⟩
      have hstep := ih (s0.Off q [d.key]).1 (cl0 ++ (s0.Off q [d.key]).2)
        hq2 hn2 hmem2 hkey3 hin2
      simp only [removeFold, hdq]
      exact hstep

/-- C3: for every delivery of an emit whose event carries the Once bit and
whose attempt was judged sent, the follow-up removal closes the
subscription's mailbox, drops its registry entry, removes it from
listeners(topic), and a later emit of the same topic from the resulting
state never reaches that subscription. The nodup hypothesis restates that
registry topic keys are unique, which the list model of the Go map loses. -/
theorem once_sent_removes (st : Emitter) (ev : BasicEvent) (d : Delivery)
    (hnodup : (topicsOf st).Nodup)
    (hd : d ∈ (st.Emit ev).2.1) (hsent : d.sent = true)
    (honce : d.event.flag ||| FlagOnce = d.event.flag) :
    (d.topic, d.key) ∈ (st.Emit ev).2.2 ∧
    keyUnderB d.key d.topic ((st.Emit ev).1).listMans = false ∧
    d.key ∉ ((st.Emit ev).1).Listeners ev.topic ∧
    (∀ ev2 : BasicEvent, ev2.topic = ev.topic →
      ∀ d2 ∈ (((st.Emit ev).1).Emit ev2).2.1,
        ¬(d2.topic = d.topic ∧ d2.key = d.key)) := by
  have hfan : d ∈ (emitFan st ev ((matchedGo ev.topic (topicsOf st)).1)).2 := by
    simpa only [Emitter.Emit] using hd
  obtain ⟨hmsd, hevt, hrem, hnv, hku⟩ := emitFan_mem st ev _ d hfan
  have hremove : d.remove = true := by
    rw [hrem, hsent]
    simp [honce]
  have hdin : d ∈ ((emitFan st ev ((matchedGo ev.topic (topicsOf st)).1)).2).filter
      (fun d => d.remove) :=
    List.mem_filter.mpr ⟨hfan, hremove⟩
  have htopfan :
      topicsOf (emitFan st ev ((matchedGo ev.topic (topicsOf st)).1)).1 =
        topicsOf st := by
    show regTopics _ = regTopics _
    rw [regTopics_skel, regTopics_skel, (emitFan_state st ev _).1]
  have hkufan : keyUnderB d.key d.topic
      ((emitFan st ev ((matchedGo ev.topic (topicsOf st)).1)).1).listMans = true := by
    rw [keyUnderB_eq_of_skel _ _ _ _ (emitFan_state st ev _).1]
    exact hku
  have hnfan :
      (topicsOf (emitFan st ev ((matchedGo ev.topic (topicsOf st)).1)).1).Nodup := by
    rw [htopfan]
    exact hnodup
  have hmemfan : d.topic ∈ (matchedGo ev.topic
      (topicsOf (emitFan st ev ((matchedGo ev.topic (topicsOf st)).1)).1)).1 := by
    rw [htopfan]
    exact hmsd
  have hqall : ∀ d2 ∈ ((emitFan st ev ((matchedGo ev.topic (topicsOf st)).1)).2).filter
      (fun d => d.remove), d2.event.topic = ev.topic := by
    intro d2 h2
    exact (emitFan_mem st ev _ d2 (List.mem_filter.mp h2).1).2.1
  obtain ⟨hcl, habs0, habs⟩ := removeFold_spec2 ev.topic
    (((emitFan st ev ((matchedGo ev.topic (topicsOf st)).1)).2).filter
      (fun d => d.remove))
    (emitFan st ev ((matchedGo ev.topic (topicsOf st)).1)).1 [] d.key d.topic
    hqall hnfan hmemfan hkufan ⟨d, hdin, rfl⟩
  refine ⟨?_, ?_, ?_, ?_⟩
  · simpa only [Emitter.Emit] using hcl
  · simpa only [Emitter.Emit] using habs0
  · intro hxin
    obtain ⟨t, htm, hkt⟩ := Listeners_src ((st.Emit ev).1) ev.topic d.key hxin
    have htm2 : t ∈ (matchedGo ev.topic (topicsOf (removeFold
        ((emitFan st ev ((matchedGo ev.topic (topicsOf st)).1)).1, [])
        (((emitFan st ev ((matchedGo ev.topic (topicsOf st)).1)).2).filter
          (fun d => d.remove))).1)).1 := by
      simpa only [Emitter.Emit] using htm
    have habst := habs t htm2
    have hkt2 : keyUnderB d.key t ((removeFold
        ((emitFan st ev ((matchedGo ev.topic (topicsOf st)).1)).1, [])
        (((emitFan st ev ((matchedGo ev.topic (topicsOf st)).1)).2).filter
          (fun d => d.remove))).1).listMans = true := by
      simpa only [Emitter.Emit] using hkt
    rw [habst] at hkt2
    exact Bool.false_ne_true hkt2
  · intro ev2 hev2 d2 hd2
    rintro ⟨hteq, hkeq⟩
    have hfan2 : d2 ∈ (emitFan ((st.Emit ev).1) ev2
        ((matchedGo ev2.topic (topicsOf (st.Emit ev).1)).1)).2 := by
      simpa only [Emitter.Emit] using hd2
    obtain ⟨hms2, _, _, _, hku2⟩ := emitFan_mem _ ev2 _ d2 hfan2
    rw [hev2] at hms2
    have hms3 : d2.topic ∈ (matchedGo ev.topic (topicsOf (removeFold
        ((emitFan st ev ((matchedGo ev.topic (topicsOf st)).1)).1, [])
        (((emitFan st ev ((matchedGo ev.topic (topicsOf st)).1)).2).filter
          (fun d => d.remove))).1)).1 := by
      simpa only [Emitter.Emit] using hms2
    have habst := habs d2.topic hms3
    rw [hkeq] at hku2
    have hku3 : keyUnderB d.key d2.topic ((removeFold
        ((emitFan st ev ((matchedGo ev.topic (topicsOf st)).1)).1, [])
        (((emitFan st ev ((matchedGo ev.topic (topicsOf st)).1)).2).filter
          (fun d => d.remove))).1).listMans = true := by
      simpa only [Emitter.Emit] using hku2
    rw [habst] at hku3
    exact Bool.false_ne_true hku3

/-- Witness for C3: a Once subscription on topic t receives one event and
is closed and dropped. -/
theorem once_sent_removes_witness :
    ("t", "k") ∈ (stOnceW.Emit { topic := "t", flag := 0, subject := 5 }).2.2 ∧
      keyUnderB "k" "t"
        (((stOnceW.Emit { topic := "t", flag := 0, subject := 5 }).1)).listMans =
        false := by
  have h := once_sent_removes stOnceW { topic := "t", flag := 0, subject := 5 }
    { topic := "t", key := "k", event := { topic := "t", flag := 1, subject := 5 },
      sent := true, remove := true }
    (by decide) (by decide) (by decide) (by decide)
  exact ⟨h.1, h.2.1⟩

end emitter
